import Mathlib

/-!
Verification of the Findchips supply-chain scraper (`main.py`,
class `UltimateFindchipsScraper`) against its natural-language
specification.

The scraper's pure helper functions are embedded as Lean functions over
`List Char` / `String`; Python's ASCII-level regular-expression and string
semantics (`re.search`, `str.strip`, `str.isdigit`, truthiness of strings)
are translated explicitly.  Rendered page content (element lists, texts and
attributes produced by the external rendering engine) is modelled as input
data, matching the spec's treatment of the rendering engine as an external
collaborator.
-/

/-! ## Character classes (Python `\s`, `\d`, `\w`, ASCII case) -/

/-- Python whitespace class `\s` (ASCII part): space, tab, LF, CR, VT, FF. -/
def isWsC (c : Char) : Bool :=
  c = ' ' || c = '\t' || c = '\n' || c = '\r' || c = '\x0b' || c = '\x0c'

/-- ASCII decimal digit, Python regex `[0-9]` / `\d`. -/
def isDigitC (c : Char) : Bool :=
  48 ≤ c.toNat && c.toNat ≤ 57

/-- ASCII uppercase letter `[A-Z]`. -/
def isUpperC (c : Char) : Bool :=
  65 ≤ c.toNat && c.toNat ≤ 90

/-- ASCII lowercase letter `[a-z]`. -/
def isLowerC (c : Char) : Bool :=
  97 ≤ c.toNat && c.toNat ≤ 122

/-- ASCII letter `[A-Za-z]`. -/
def isAlphaC (c : Char) : Bool :=
  isUpperC c || isLowerC c

/-- Python word character `\w` (ASCII part): letters, digits, underscore. -/
def isWordC (c : Char) : Bool :=
  isAlphaC c || isDigitC c || c = '_'

/-- ASCII lowercasing, as Python `str.lower` acts on ASCII letters. -/
def toLowerC (c : Char) : Char :=
  if isUpperC c then Char.ofNat (c.toNat + 32) else c

/-- ASCII uppercasing, as Python `str.upper` acts on ASCII letters. -/
def toUpperC (c : Char) : Char :=
  if isLowerC c then Char.ofNat (c.toNat - 32) else c

/-! ## Python string primitives -/

/-- Python `str.strip`: drop leading and trailing whitespace. -/
def pyStrip (l : List Char) : List Char :=
  ((l.dropWhile isWsC).reverse.dropWhile isWsC).reverse

/-- Python `str.isdigit` (ASCII): non-empty and all decimal digits. -/
def pyIsdigit (l : List Char) : Bool :=
  !l.isEmpty && l.all isDigitC

/-- Python substring test `pat in l` on character lists. -/
def hasSubstr (pat : List Char) : List Char → Bool
  | [] => pat.isEmpty
  | c :: t => pat.isPrefixOf (c :: t) || hasSubstr pat t

/-- Case-insensitive substring test, Python `pat in l.lower()` with an
ASCII-lowercased pattern. -/
def hasSubstrCI (pat : List Char) (l : List Char) : Bool :=
  hasSubstr (pat.map toLowerC) (l.map toLowerC)

theorem dropWhile_length_le {α : Type} (p : α → Bool) (l : List α) :
    (l.dropWhile p).length ≤ l.length := by
  induction l with
  | nil => simp [List.dropWhile]
  | cons a t ih =>
    by_cases h : p a
    · simp only [List.dropWhile, h]
      exact Nat.le_succ_of_le ih
    · simp [List.dropWhile, h]

/-- Helper for `collapseWs`: the flag records whether the previous
character was whitespace (so the current run already emitted its space). -/
def collapseWsAux : Bool → List Char → List Char
  | _, [] => []
  | prevWs, c :: rest =>
    if isWsC c then
      if prevWs then collapseWsAux true rest
      else ' ' :: collapseWsAux true rest
    else c :: collapseWsAux false rest

/-- Replace every maximal whitespace run by one space, the combined effect
of `re.sub(r'[\r\n\t]+', ' ', v)` followed by `re.sub(r'\s+', ' ', v)`
(the second pass collapses the spaces the first pass introduced). -/
def collapseWs (l : List Char) : List Char :=
  collapseWsAux false l

/-! ## Text Normalizer: `clean_price_text` (main.py lines 43-66) -/

/-- The currency-symbol class `[\$€£¥₹¢]` of `clean_price_text`. -/
def isCurC (c : Char) : Bool :=
  c = '$' || c = '€' || c = '£' || c = '¥' || c = '₹' || c = '¢'

/-- The class `[0-9,]` appearing in the price regex. -/
def isNumCommaC (c : Char) : Bool :=
  isDigitC c || c = ','

/-- The `\.?[0-9]*` tail of the price regex: an optional decimal point with
a following (possibly empty) digit run. -/
def dotPart (l : List Char) : List Char :=
  match l with
  | c :: rest => if c = '.' then '.' :: rest.takeWhile isDigitC else []
  | [] => []

/-- Group 1 of `re.search(r'[\$€£¥₹¢]?([0-9,]+\.?[0-9]*)', cleaned)`: the
leftmost maximal run of digits/commas, extended by an optional decimal
part.  The optional currency prefix does not change group 1, so the
leftmost match's group starts at the first digit-or-comma character. -/
def numTok : List Char → Option (List Char)
  | [] => none
  | c :: rest =>
    if isNumCommaC c then
      some ((c :: rest).takeWhile isNumCommaC ++
            dotPart ((c :: rest).dropWhile isNumCommaC))
    else numTok rest

/-- `clean_price_text` on character lists.  Blank input yields `[]`; the
whitespace-stripped input is searched for the price regex; on a match the
first currency symbol anywhere in the string (if any) is prepended to the
comma-free numeric group; otherwise the first 50 characters of the
whitespace-stripped input are returned. -/
def cleanPriceL (s : List Char) : List Char :=
  if s.all isWsC then []
  else
    let cleaned := s.filter (fun c => !isWsC c)
    match numTok cleaned with
    | some tok =>
      let np := tok.filter (fun c => !(c = ','))
      (match cleaned.find? isCurC with
       | some sym => [sym]
       | none => []) ++ np
    | none => cleaned.take 50

/-- `clean_price_text` on strings (main.py lines 43-66). -/
def clean_price_text (s : String) : String :=
  String.mk (cleanPriceL s.data)

example : clean_price_text "$3,250.00" = "$3250.00" := by decide
example : clean_price_text "$3.25" = "$3.25" := by decide
example : clean_price_text "a b" = "ab" := by decide
example : clean_price_text "a,b" = "" := by decide
example : clean_price_text ",.5" = ".5" := by decide
example : clean_price_text ".5" = "5" := by decide
example : clean_price_text "  $3,25 each\n" = "$325" := by decide
example : clean_price_text "x1.2.3" = "1.2" := by decide
example : clean_price_text "abc€def5" = "€5" := by decide
example : clean_price_text "€," = "€" := by decide
example : clean_price_text "1." = "1." := by decide

/-! ## Text Normalizer: currency, categories, manufacturer names -/

/-- `get_currency_from_price` (main.py lines 179-201): symbol/code lookup
with USD default. -/
def get_currency_from_price (price_text : String) : String :=
  if price_text = "" then "USD"
  else if hasSubstr "¥".data price_text.data || hasSubstr "CNY".data price_text.data then "CNY"
  else if hasSubstr "€".data price_text.data then "EUR"
  else if hasSubstr "£".data price_text.data || hasSubstr "GBP".data price_text.data then "GBP"
  else if hasSubstr "₹".data price_text.data || hasSubstr "INR".data price_text.data then "INR"
  else if hasSubstr "$".data price_text.data then "USD"
  else "USD"

/-- Scanner state for `removeParamSearch`: `scan` looks for the literal
`/Parametric Search`; `skip n` silently drops `n` more matched characters
and then drops the rest of the line, keeping its terminating newline. -/
inductive RpsState : Type
  | scan : RpsState
  | skip : Nat → RpsState

/-- Helper for `removeParamSearch`, one character at a time. -/
def rpsAux : RpsState → List Char → List Char
  | _, [] => []
  | RpsState.scan, c :: t =>
    if "/Parametric Search".data.isPrefixOf (c :: t) then rpsAux (RpsState.skip 17) t
    else c :: rpsAux RpsState.scan t
  | RpsState.skip (n + 1), _ :: t => rpsAux (RpsState.skip n) t
  | RpsState.skip 0, c :: t =>
    if c = '\n' then c :: rpsAux RpsState.scan t
    else rpsAux (RpsState.skip 0) t

/-- `re.sub(r'/Parametric Search.*', '', clean)`: each occurrence of the
literal `/Parametric Search` is removed together with the rest of its line
(`.` does not cross a newline). -/
def removeParamSearch (l : List Char) : List Char :=
  rpsAux RpsState.scan l

/-- `clean_category_name` (main.py lines 88-94): drop digits and commas,
drop `/Parametric Search…` tails, keep the first slash segment, cap at 50
characters. -/
def clean_category_name (cat_text : String) : String :=
  let c1 := pyStrip (cat_text.data.filter (fun c => !(isDigitC c || c = ',')))
  let c2 := pyStrip (removeParamSearch c1)
  let c3 := if c2.contains '/' then pyStrip (c2.takeWhile (fun c => !(c = '/'))) else c2
  String.mk (c3.take 50)

/-- `get_main_category_only` (main.py lines 96-111): split the path on
slashes, drop blank segments, skip a leading generic `components` root. -/
def get_main_category_only (category_path : String) : String :=
  let parts := ((category_path.data.splitOn '/').map pyStrip).filter (fun p => !p.isEmpty)
  match parts with
  | [] => ""
  | [p0] => String.mk p0
  | p0 :: p1 :: _ =>
    if p0.map toLowerC = "components".data then String.mk p1 else String.mk p0

/-- `parse_category_mfg` (main.py lines 160-177): split the path at its
last slash; the tail is a manufacturer candidate if, after removing
non-`[\w\s&-]` characters, it is longer than 2 and does not start with
`Page`. -/
def parse_category_mfg (category_path : String) : String × String :=
  if category_path.data.contains '/' then
    let rev := category_path.data.reverse
    let afterSlash := (rev.takeWhile (fun c => !(c = '/'))).reverse
    let beforeSlash := ((rev.dropWhile (fun c => !(c = '/'))).drop 1).reverse
    let category := clean_category_name (String.mk beforeSlash)
    let mfgCand := (pyStrip afterSlash).filter (fun c => isWordC c || isWsC c || c = '&' || c = '-')
    if decide (2 < mfgCand.length) && !("Page".data.isPrefixOf mfgCand) then
      (category, String.mk mfgCand)
    else (clean_category_name category_path, "")
  else (clean_category_name category_path, "")

/-- The block-list of UI/search pollution keywords in `clean_mfg_name`. -/
def mfgKeywords : List (List Char) :=
  ["parametric".data, "search".data, "filter".data, "category".data, "browse".data,
   "results".data, "view".data, "find".data, "parts".data, "list".data, "data".data,
   "select".data, "sponsored".data, "alert".data, "loading".data, "page".data]

/-- Full-string match of `^[A-Z][A-Za-z\s&\-]{1,28}[A-Za-z]?$`: an initial
uppercase letter, 1-28 characters from `[A-Za-z\s&-]`, and an optional
final letter (forced when the total length is 30). -/
def validMfgShape (l : List Char) : Bool :=
  match l with
  | [] => false
  | _ :: rest =>
    isUpperC (l.headD ' ') && decide (1 ≤ rest.length) && decide (rest.length ≤ 29) &&
    rest.all (fun x => isAlphaC x || isWsC x || x = '&' || x = '-') &&
    (decide (rest.length < 29) ||
      (match rest.getLast? with
       | some x => isAlphaC x
       | none => false))

/-- `clean_mfg_name` (main.py lines 203-239): keyword block-list, character
filtering, whitespace collapsing, and the strict capitalized-name shape
check; empty string on any rejection. -/
def clean_mfg_name (mfg_text : String) : String :=
  if (pyStrip mfg_text.data).length < 2 then ""
  else if mfgKeywords.any (fun kw => hasSubstr kw (mfg_text.data.map toLowerC)) then ""
  else
    let c1 := (pyStrip mfg_text.data).filter (fun c => isWordC c || isWsC c || c = '&' || c = '-')
    let cleaned := pyStrip (collapseWs c1)
    if decide (2 ≤ cleaned.length) && validMfgShape cleaned &&
       cleaned.all (fun c => !isDigitC c) then
      String.mk (cleaned.take 30)
    else ""

/-- The pollution guard applied to resolved manufacturer names
(main.py lines 524 and 607): case-insensitive substring test for
`parametric` or `search`. -/
def hasPollution (s : String) : Bool :=
  hasSubstrCI "parametric".data s.data || hasSubstrCI "search".data s.data

example : clean_mfg_name "Mouser" = "Mouser" := by decide
example : clean_mfg_name "Digi  Key" = "Digi Key" := by decide
example : clean_mfg_name "Data Inc" = "" := by decide
example : clean_mfg_name "TE Connectivity" = "TE Connectivity" := by decide
example : clean_mfg_name "A-" = "A-" := by decide
example : clean_mfg_name "a bc" = "" := by decide
example : clean_mfg_name "Digi-Key!" = "Digi-Key" := by decide
example : clean_mfg_name "Parametric Search Results" = "" := by decide
example : get_main_category_only "Components/Connectors/Headers" = "Connectors" := by decide
example : clean_category_name "Connectors 123/Parametric Search x" = "Connectors" := by decide
example : parse_category_mfg "Connectors/TE Connectivity" = ("Connectors", "TE Connectivity") := by decide
example : parse_category_mfg "Connectors/Page 2" = ("Connectors", "") := by decide
example : get_currency_from_price "€3,25" = "EUR" := by decide

/-! ## Work Coordinator: the 6-way category partition (main.py lines 791-800) -/

/-- The six per-thread category subsets built in `run_parallel`: Python
slices `[:k]`, `[k:2k]`, …, `[5k:]` with `k = len(main_cats) // 6`. -/
def threads_categories {α : Type} (main_cats : List α) : List (List α) :=
  let k := main_cats.length / 6
  [main_cats.take k,
   (main_cats.drop k).take k,
   (main_cats.drop (2 * k)).take k,
   (main_cats.drop (3 * k)).take k,
   (main_cats.drop (4 * k)).take k,
   main_cats.drop (5 * k)]

example : clean_category_name "A/Parametric Search q\nB/C" = "A\nB" := by decide
example : get_main_category_only "components / x / y" = "x" := by decide
example : parse_category_mfg "A/B/xy" = ("A", "") := by decide

theorem take_append_drop_chain {α : Type} (l : List α) (n k : Nat) :
    (l.drop n).take k ++ l.drop (n + k) = l.drop n := by
  have h := List.take_append_drop k (l.drop n)
  rwa [List.drop_drop] at h

/-- C9.  The six per-thread category subsets of `run_parallel` are a
partition of the discovered category list by position: there are exactly
six subsets and their concatenation is the whole list, so every discovered
category (with multiplicity) is assigned to exactly one worker thread —
including when the list has fewer than six entries (then the first five
subsets are empty and the sixth is the whole list). -/
theorem threads_categories_partition {α : Type} (main_cats : List α) :
    (threads_categories main_cats).length = 6 ∧
    (threads_categories main_cats).flatten = main_cats := by
  constructor
  · rfl
  · show main_cats.take (main_cats.length / 6) ++
      ((main_cats.drop (main_cats.length / 6)).take (main_cats.length / 6) ++
      ((main_cats.drop (2 * (main_cats.length / 6))).take (main_cats.length / 6) ++
      ((main_cats.drop (3 * (main_cats.length / 6))).take (main_cats.length / 6) ++
      ((main_cats.drop (4 * (main_cats.length / 6))).take (main_cats.length / 6) ++
      (main_cats.drop (5 * (main_cats.length / 6)) ++ []))))) = main_cats
    set k := main_cats.length / 6 with hk
    rw [List.append_nil]
    have h5 : main_cats.drop (4 * k) =
        (main_cats.drop (4 * k)).take k ++ main_cats.drop (5 * k) := by
      have := take_append_drop_chain main_cats (4 * k) k
      rw [show 4 * k + k = 5 * k by ring] at this
      exact this.symm
    have h4 : main_cats.drop (3 * k) =
        (main_cats.drop (3 * k)).take k ++ main_cats.drop (4 * k) := by
      have := take_append_drop_chain main_cats (3 * k) k
      rw [show 3 * k + k = 4 * k by ring] at this
      exact this.symm
    have h3 : main_cats.drop (2 * k) =
        (main_cats.drop (2 * k)).take k ++ main_cats.drop (3 * k) := by
      have := take_append_drop_chain main_cats (2 * k) k
      rw [show 2 * k + k = 3 * k by ring] at this
      exact this.symm
    have h2 : main_cats.drop k =
        (main_cats.drop k).take k ++ main_cats.drop (2 * k) := by
      have := take_append_drop_chain main_cats k k
      rw [show k + k = 2 * k by ring] at this
      exact this.symm
    conv_rhs => rw [← List.take_append_drop k main_cats, h2, h3, h4, h5]

/-! ## Character-class facts used in the price-cleaner proofs -/

theorem wsC_toNat_le {c : Char} (h : isWsC c = true) : c.toNat ≤ 32 := by
  simp only [isWsC, Bool.or_eq_true, decide_eq_true_eq] at h
  rcases h with ((((h | h) | h) | h) | h) | h <;> subst h <;> decide

theorem isDigitC_not_ws {c : Char} (h : isDigitC c = true) : isWsC c = false := by
  simp only [isDigitC, Bool.and_eq_true, decide_eq_true_eq] at h
  cases hw : isWsC c
  · rfl
  · exact absurd (wsC_toNat_le hw) (by omega)

theorem isDigitC_numComma {c : Char} (h : isDigitC c = true) : isNumCommaC c = true := by
  simp [isNumCommaC, h]

theorem isDigitC_ne_comma {c : Char} (h : isDigitC c = true) : ¬ c = ',' := by
  rintro rfl; revert h; decide

theorem isDigitC_ne_dot {c : Char} (h : isDigitC c = true) : ¬ c = '.' := by
  rintro rfl; revert h; decide

theorem isDigitC_not_cur {c : Char} (h : isDigitC c = true) : isCurC c = false := by
  simp only [isDigitC, Bool.and_eq_true, decide_eq_true_eq] at h
  cases hc : isCurC c
  · rfl
  · exfalso
    simp only [isCurC, Bool.or_eq_true, decide_eq_true_eq] at hc
    rcases hc with ((((e | e) | e) | e) | e) | e <;> subst e <;> revert h <;> decide

theorem isCurC_not_ws {c : Char} (h : isCurC c = true) : isWsC c = false := by
  simp only [isCurC, Bool.or_eq_true, decide_eq_true_eq] at h
  rcases h with ((((e | e) | e) | e) | e) | e <;> subst e <;> decide

theorem isCurC_not_numComma {c : Char} (h : isCurC c = true) : isNumCommaC c = false := by
  simp only [isCurC, Bool.or_eq_true, decide_eq_true_eq] at h
  rcases h with ((((e | e) | e) | e) | e) | e <;> subst e <;> decide

theorem isCurC_ne_comma {c : Char} (h : isCurC c = true) : ¬ c = ',' := by
  simp only [isCurC, Bool.or_eq_true, decide_eq_true_eq] at h
  rcases h with ((((e | e) | e) | e) | e) | e <;> subst e <;> decide

theorem isNumCommaC_not_comma_digit {c : Char} (h1 : isNumCommaC c = true)
    (h2 : ¬ c = ',') : isDigitC c = true := by
  simp only [isNumCommaC, Bool.or_eq_true, decide_eq_true_eq] at h1
  rcases h1 with h | h
  · exact h
  · exact absurd h h2

theorem all_false_of_mem {p : Char → Bool} {l : List Char} {c : Char}
    (hc : c ∈ l) (h : p c = false) : l.all p = false := by
  cases hall : l.all p
  · rfl
  · exact absurd (List.all_eq_true.mp hall c hc) (by simp [h])

theorem takeWhile_append_all {p : Char → Bool} (l1 l2 : List Char)
    (h : ∀ x ∈ l1, p x = true) :
    (l1 ++ l2).takeWhile p = l1 ++ l2.takeWhile p := by
  induction l1 with
  | nil => simp
  | cons a t ih => simp_all [List.takeWhile_cons]

theorem dropWhile_append_all {p : Char → Bool} (l1 l2 : List Char)
    (h : ∀ x ∈ l1, p x = true) :
    (l1 ++ l2).dropWhile p = l2.dropWhile p := by
  induction l1 with
  | nil => simp
  | cons a t ih => simp_all [List.dropWhile_cons]

/-! ## Structure of the price-regex search -/

theorem numTok_cons_neg {c : Char} (l : List Char) (h : isNumCommaC c = false) :
    numTok (c :: l) = numTok l := by
  simp [numTok, h]

theorem numTok_none_iff (l : List Char) :
    numTok l = none ↔ ∀ c ∈ l, isNumCommaC c = false := by
  induction l with
  | nil => simp [numTok]
  | cons a t ih =>
    cases h : isNumCommaC a
    · simp [numTok, h, ih]
    · simp [numTok, h]

/-- On a list whose head passes the first numeric-run check, `numTok`
returns the maximal digit/comma run extended by `dotPart`. -/
theorem numTok_good (D1 dp : List Char) (hne : D1 ≠ [])
    (hD1 : ∀ c ∈ D1, isDigitC c = true)
    (hdp : dp = [] ∨ ∃ D2, dp = '.' :: D2 ∧ ∀ c ∈ D2, isDigitC c = true) :
    numTok (D1 ++ dp) = some (D1 ++ dp) := by
  cases D1 with
  | nil => exact absurd rfl hne
  | cons d D1' =>
    have hd : isNumCommaC d = true := isDigitC_numComma (hD1 d (by simp))
    have hall : ∀ c ∈ d :: D1', isNumCommaC c = true :=
      fun c hc => isDigitC_numComma (hD1 c hc)
    rcases hdp with rfl | ⟨D2, rfl, hD2⟩
    · rw [List.append_nil]
      simp only [numTok, hd, if_true]
      rw [List.takeWhile_eq_self_iff.mpr hall,
          List.dropWhile_eq_nil_iff.mpr (fun x hx => hall x hx)]
      simp [dotPart]
    · have hdotc : isNumCommaC '.' = false := by decide
      have ht := takeWhile_append_all (d :: D1') ('.' :: D2) hall
      have hdw := dropWhile_append_all (d :: D1') ('.' :: D2) hall
      have hdot : ('.' :: D2).takeWhile isNumCommaC = [] := by
        simp [List.takeWhile_cons, hdotc]
      have hdrop : ('.' :: D2).dropWhile isNumCommaC = '.' :: D2 := by
        simp [List.dropWhile_cons, hdotc]
      simp only [List.cons_append] at ht hdw ⊢
      simp only [numTok, hd, if_true, ht, hdw, hdot, hdrop, List.append_nil]
      simp only [dotPart, if_pos]
      rw [List.takeWhile_eq_self_iff.mpr hD2]
      simp [List.cons_append]

/-- Any token produced by `numTok` is a non-empty digit/comma run followed
by an optional decimal tail. -/
theorem numTok_some_shape {l tok : List Char} (h : numTok l = some tok) :
    ∃ run dp, tok = run ++ dp ∧ run ≠ [] ∧ (∀ c ∈ run, isNumCommaC c = true) ∧
      (dp = [] ∨ ∃ t2, dp = '.' :: t2 ∧ ∀ c ∈ t2, isDigitC c = true) := by
  induction l with
  | nil => simp [numTok] at h
  | cons a t ih =>
    cases ha : isNumCommaC a
    · rw [numTok_cons_neg _ ha] at h
      exact ih h
    · simp only [numTok, ha, if_true, Option.some_inj] at h
      refine ⟨(a :: t).takeWhile isNumCommaC, dotPart ((a :: t).dropWhile isNumCommaC),
        h.symm, ?_, ?_, ?_⟩
      · simp [List.takeWhile_cons, ha]
      · exact fun c hc => List.mem_takeWhile_imp hc
      · cases hrest : (a :: t).dropWhile isNumCommaC with
        | nil => left; simp [dotPart]
        | cons b t2 =>
          by_cases hb : b = '.'
          · subst hb
            right
            exact ⟨t2.takeWhile isDigitC, by simp [dotPart],
              fun c hc => List.mem_takeWhile_imp hc⟩
          · left; simp [dotPart, hb]

/-- Every whitespace-free list whose first digit-or-comma run (if any)
is reached by `numTok` is computed as in the specification reformulation:
drop the non-numeric prefix, take the run, add the decimal tail. -/
theorem numTok_some_spec (l : List Char) (h : l.any isNumCommaC = true) :
    numTok l = some
      ((l.dropWhile (fun c => !isNumCommaC c)).takeWhile isNumCommaC ++
       dotPart ((l.dropWhile (fun c => !isNumCommaC c)).dropWhile isNumCommaC)) := by
  induction l with
  | nil => simp at h
  | cons a t ih =>
    cases ha : isNumCommaC a
    · have hany : t.any isNumCommaC = true := by
        simpa [List.any_cons, ha] using h
      rw [numTok_cons_neg _ ha, ih hany]
      simp [List.dropWhile_cons, ha]
    · simp [numTok, ha, List.dropWhile_cons]

/-! ## Shape of `clean_price_text` outputs -/

/-- An optional single currency symbol. -/
def SymPart (s : List Char) : Prop :=
  s = [] ∨ ∃ c, s = [c] ∧ isCurC c = true

/-- An optional decimal tail: empty, or a dot followed by digits. -/
def DotTail (dp : List Char) : Prop :=
  dp = [] ∨ ∃ D2, dp = '.' :: D2 ∧ ∀ c ∈ D2, isDigitC c = true

/-- Shape of every `cleanPriceL` output: either a short string free of
whitespace and of digit/comma characters (the no-match fallback), or an
optional currency symbol, a digit run, and an optional decimal tail. -/
def CPShape (r : List Char) : Prop :=
  ((∀ c ∈ r, isWsC c = false ∧ isNumCommaC c = false) ∧ r.length ≤ 50) ∨
  (∃ s D1 dp, r = s ++ D1 ++ dp ∧ SymPart s ∧
    (∀ c ∈ D1, isDigitC c = true) ∧ DotTail dp)

theorem cleanPriceL_shape (x : List Char) : CPShape (cleanPriceL x) := by
  by_cases hb : x.all isWsC = true
  · left
    simp [cleanPriceL, hb]
  · have hb' : x.all isWsC = false := by
      cases h : x.all isWsC
      · rfl
      · exact absurd h hb
    cases hnt : numTok (x.filter (fun c => !isWsC c)) with
    | none =>
      left
      simp only [cleanPriceL, hb', Bool.false_eq_true, if_false, hnt]
      refine ⟨fun c hc => ?_, List.length_take_le _ _⟩
      have hc2 : c ∈ x.filter (fun c => !isWsC c) := List.take_subset _ _ hc
      have hw : isWsC c = false := by
        have := (List.mem_filter.mp hc2).2
        simpa using this
      exact ⟨hw, (numTok_none_iff _).mp hnt c hc2⟩
    | some tok =>
      obtain ⟨run, dp, htok, hrunNe, hrun, hdp⟩ := numTok_some_shape hnt
      have hdpfil : dp.filter (fun c => !(c = ',')) = dp := by
        refine List.filter_eq_self.mpr (fun c hc => ?_)
        rcases hdp with rfl | ⟨t2, rfl, ht2⟩
        · simp at hc
        · rcases List.mem_cons.mp hc with rfl | hc2
          · decide
          · simp [isDigitC_ne_comma (ht2 c hc2)]
      right
      cases hfind : (x.filter (fun c => !isWsC c)).find? isCurC with
      | none =>
        refine ⟨[], run.filter (fun c => !(c = ',')), dp, ?_, Or.inl rfl, ?_, hdp⟩
        · simp only [cleanPriceL, hb', Bool.false_eq_true, if_false, hnt, hfind]
          simp [htok, List.filter_append, hdpfil]
        · intro c hc
          have hm := List.mem_filter.mp hc
          exact isNumCommaC_not_comma_digit (hrun c hm.1) (by simpa using hm.2)
      | some sym =>
        refine ⟨[sym], run.filter (fun c => !(c = ',')), dp, ?_,
          Or.inr ⟨sym, rfl, List.find?_some hfind⟩, ?_, hdp⟩
        · simp only [cleanPriceL, hb', Bool.false_eq_true, if_false, hnt, hfind]
          simp [htok, List.filter_append, hdpfil]
        · intro c hc
          have hm := List.mem_filter.mp hc
          exact isNumCommaC_not_comma_digit (hrun c hm.1) (by simpa using hm.2)

/-- `cleanPriceL` fixes whitespace-free, digit/comma-free strings of
length at most 50. -/
theorem cleanPriceL_fix_flat (r : List Char)
    (h : (∀ c ∈ r, isWsC c = false ∧ isNumCommaC c = false) ∧ r.length ≤ 50) :
    cleanPriceL r = r := by
  cases r with
  | nil => rfl
  | cons a t =>
    have hws : ∀ c ∈ a :: t, isWsC c = false := fun c hc => (h.1 c hc).1
    have hall : (a :: t).all isWsC = false :=
      all_false_of_mem (List.mem_cons_self a t) (hws a (by simp))
    have hfil : (a :: t).filter (fun c => !isWsC c) = a :: t :=
      List.filter_eq_self.mpr (fun c hc => by simp [hws c hc])
    have hnt : numTok (a :: t) = none :=
      (numTok_none_iff _).mpr (fun c hc => (h.1 c hc).2)
    simp only [cleanPriceL, hall, Bool.false_eq_true, if_false, hfil, hnt]
    exact List.take_of_length_le h.2

/-- `cleanPriceL` fixes strings of the form symbol + digits + decimal
tail whose digit run is non-empty. -/
theorem cleanPriceL_fix_good (s D1 dp : List Char) (hs : SymPart s) (hne : D1 ≠ [])
    (hD1 : ∀ c ∈ D1, isDigitC c = true) (hdp : DotTail dp) :
    cleanPriceL (s ++ D1 ++ dp) = s ++ D1 ++ dp := by
  obtain ⟨d, D1', rfl⟩ : ∃ d D1', D1 = d :: D1' := by
    cases D1 with
    | nil => exact absurd rfl hne
    | cons d t => exact ⟨d, t, rfl⟩
  have hdpF : ∀ c ∈ dp, isWsC c = false ∧ ¬ c = ',' ∧ isCurC c = false := by
    rcases hdp with rfl | ⟨D2, rfl, hD2⟩
    · simp
    · intro c hc
      rcases List.mem_cons.mp hc with rfl | hc2
      · exact ⟨by decide, by decide, by decide⟩
      · exact ⟨isDigitC_not_ws (hD2 c hc2), isDigitC_ne_comma (hD2 c hc2),
          isDigitC_not_cur (hD2 c hc2)⟩
  have hgood : numTok ((d :: D1') ++ dp) = some ((d :: D1') ++ dp) :=
    numTok_good _ _ (by simp) hD1 hdp
  have hnp : ((d :: D1') ++ dp).filter (fun c => !(c = ',')) = (d :: D1') ++ dp := by
    refine List.filter_eq_self.mpr (fun c hc => ?_)
    rcases List.mem_append.mp hc with hc1 | hc2
    · simp [isDigitC_ne_comma (hD1 c hc1)]
    · simp [(hdpF c hc2).2.1]
  have hfindTail : ((d :: D1') ++ dp).find? isCurC = none := by
    refine List.find?_eq_none.mpr (fun c hc => ?_)
    rcases List.mem_append.mp hc with hc1 | hc2
    · simp [isDigitC_not_cur (hD1 c hc1)]
    · simp [(hdpF c hc2).2.2]
  rcases hs with rfl | ⟨cs, rfl, hcs⟩
  · have hall : ([] ++ (d :: D1') ++ dp).all isWsC = false := by
      refine all_false_of_mem (l := [] ++ (d :: D1') ++ dp) (c := d) (by simp) ?_
      exact isDigitC_not_ws (hD1 d (by simp))
    have hfil : ([] ++ (d :: D1') ++ dp).filter (fun c => !isWsC c) =
        [] ++ (d :: D1') ++ dp := by
      refine List.filter_eq_self.mpr (fun c hc => ?_)
      simp only [List.nil_append] at hc
      rcases List.mem_append.mp hc with hc1 | hc2
      · simp [isDigitC_not_ws (hD1 c hc1)]
      · simp [(hdpF c hc2).1]
    simp only [List.nil_append] at hall hfil ⊢
    simp only [cleanPriceL, hall, Bool.false_eq_true, if_false, hfil, hgood, hfindTail, hnp]
    simp
  · have hall : ([cs] ++ (d :: D1') ++ dp).all isWsC = false := by
      refine all_false_of_mem (l := [cs] ++ (d :: D1') ++ dp) (c := d) (by simp) ?_
      exact isDigitC_not_ws (hD1 d (by simp))
    have hfil : ([cs] ++ (d :: D1') ++ dp).filter (fun c => !isWsC c) =
        [cs] ++ (d :: D1') ++ dp := by
      refine List.filter_eq_self.mpr (fun c hc => ?_)
      rcases List.mem_append.mp hc with hc0 | hc2
      · rcases List.mem_append.mp hc0 with hc1 | hc1
        · simp at hc1
          subst hc1
          simp [isCurC_not_ws hcs]
        · simp [isDigitC_not_ws (hD1 c hc1)]
      · simp [(hdpF c hc2).1]
    have hcons : [cs] ++ (d :: D1') ++ dp = cs :: ((d :: D1') ++ dp) := by simp
    have hnt : numTok (cs :: ((d :: D1') ++ dp)) = some ((d :: D1') ++ dp) := by
      rw [numTok_cons_neg _ (isCurC_not_numComma hcs)]
      exact hgood
    have hfind : (cs :: ((d :: D1') ++ dp)).find? isCurC = some cs :=
      List.find?_cons_of_pos _ hcs
    rw [hcons] at hall hfil ⊢
    simp only [cleanPriceL, hall, Bool.false_eq_true, if_false, hfil, hnt, hfind, hnp]
    simp

/-- The one non-stable case: a cleaned price whose numeric part begins
with a decimal point (the digit/comma run of the original input was
commas only).  A second cleaning drops the leading dot. -/
theorem cleanPriceL_dot_step (s : List Char) (hs : SymPart s) (e : Char) (D2' : List Char)
    (he : isDigitC e = true) (hD2 : ∀ c ∈ D2', isDigitC c = true) :
    cleanPriceL (s ++ '.' :: e :: D2') = s ++ e :: D2' := by
  have hD : ∀ c ∈ e :: D2', isDigitC c = true := by
    intro c hc
    rcases List.mem_cons.mp hc with rfl | hc2
    · exact he
    · exact hD2 c hc2
  have hgood : numTok ((e :: D2') ++ ([] : List Char)) = some ((e :: D2') ++ []) :=
    numTok_good _ _ (by simp) hD (Or.inl rfl)
  have hgood' : numTok (e :: D2') = some (e :: D2') := by simpa using hgood
  have hdot : numTok ('.' :: e :: D2') = some (e :: D2') := by
    rw [numTok_cons_neg _ (by decide)]
    exact hgood'
  have hnp : (e :: D2').filter (fun c => !(c = ',')) = e :: D2' :=
    List.filter_eq_self.mpr (fun c hc => by simp [isDigitC_ne_comma (hD c hc)])
  have htailF : ∀ c ∈ '.' :: e :: D2', isWsC c = false ∧ isCurC c = false := by
    intro c hc
    rcases List.mem_cons.mp hc with rfl | hc2
    · exact ⟨by decide, by decide⟩
    · exact ⟨isDigitC_not_ws (hD c hc2), isDigitC_not_cur (hD c hc2)⟩
  rcases hs with rfl | ⟨cs, rfl, hcs⟩
  · have hall : ([] ++ '.' :: e :: D2').all isWsC = false := by
      refine all_false_of_mem (c := '.') (by simp) (by decide)
    have hfil : ([] ++ '.' :: e :: D2').filter (fun c => !isWsC c) = [] ++ '.' :: e :: D2' :=
      List.filter_eq_self.mpr (fun c hc => by simp [(htailF c (by simpa using hc)).1])
    have hfind : ([] ++ '.' :: e :: D2').find? isCurC = none :=
      List.find?_eq_none.mpr (fun c hc => by simp [(htailF c (by simpa using hc)).2])
    simp only [List.nil_append] at hall hfil hfind ⊢
    simp only [cleanPriceL, hall, Bool.false_eq_true, if_false, hfil, hdot, hfind, hnp]
    simp
  · have hall : ([cs] ++ '.' :: e :: D2').all isWsC = false := by
      refine all_false_of_mem (c := '.') (by simp) (by decide)
    have hfil : ([cs] ++ '.' :: e :: D2').filter (fun c => !isWsC c) =
        [cs] ++ '.' :: e :: D2' := by
      refine List.filter_eq_self.mpr (fun c hc => ?_)
      rcases List.mem_cons.mp hc with rfl | hc2
      · simp [isCurC_not_ws hcs]
      · simp [(htailF c hc2).1]
    have hnt2 : numTok ([cs] ++ '.' :: e :: D2') = some (e :: D2') := by
      rw [show [cs] ++ '.' :: e :: D2' = cs :: '.' :: e :: D2' from rfl]
      rw [numTok_cons_neg _ (isCurC_not_numComma hcs)]
      exact hdot
    have hfind : ([cs] ++ '.' :: e :: D2').find? isCurC = some cs :=
      List.find?_cons_of_pos _ hcs
    simp only [cleanPriceL, hall, Bool.false_eq_true, if_false, hfil, hnt2, hfind, hnp]

/-- `cleanPriceL` is a fixed point from the second application on. -/
theorem cleanPriceL_stable (r : List Char) (h : CPShape r) :
    cleanPriceL (cleanPriceL r) = cleanPriceL r := by
  rcases h with hflat | ⟨s, D1, dp, rfl, hs, hD1, hdp⟩
  · have e := cleanPriceL_fix_flat r hflat
    rw [e, e]
  · by_cases hne : D1 = []
    · subst hne
      rcases hdp with rfl | ⟨D2, rfl, hD2⟩
      · rcases hs with rfl | ⟨cs, rfl, hcs⟩
        · rfl
        · have e := cleanPriceL_fix_flat ([cs] ++ [] ++ [])
            ⟨by
              intro c hc
              simp at hc
              subst hc
              exact ⟨isCurC_not_ws hcs, isCurC_not_numComma hcs⟩,
             by simp⟩
          rw [e, e]
      · cases D2 with
        | nil =>
          have hflat2 : (∀ c ∈ s ++ [] ++ ['.'], isWsC c = false ∧ isNumCommaC c = false) ∧
              (s ++ [] ++ ['.']).length ≤ 50 := by
            constructor
            · intro c hc
              rcases hs with rfl | ⟨cs, rfl, hcs⟩
              · simp at hc
                subst hc
                exact ⟨by decide, by decide⟩
              · simp at hc
                rcases hc with rfl | rfl
                · exact ⟨isCurC_not_ws hcs, isCurC_not_numComma hcs⟩
                · exact ⟨by decide, by decide⟩
            · rcases hs with rfl | ⟨cs, rfl, hcs⟩ <;> simp
          have e := cleanPriceL_fix_flat _ hflat2
          rw [e, e]
        | cons e2 D2' =>
          have he2 : isDigitC e2 = true := hD2 e2 (by simp)
          have hD2' : ∀ c ∈ D2', isDigitC c = true := fun c hc => hD2 c (by simp [hc])
          have hr : s ++ [] ++ ('.' :: e2 :: D2') = s ++ '.' :: e2 :: D2' := by simp
          have hstep := cleanPriceL_dot_step s hs e2 D2' he2 hD2'
          rw [hr, hstep]
          have hfix := cleanPriceL_fix_good s (e2 :: D2') [] hs (by simp)
            (fun c hc => hD2 c hc) (Or.inl rfl)
          simpa using hfix
    · have e := cleanPriceL_fix_good s D1 dp hs hne hD1 hdp
      rw [e, e]

/-! ## C5 and C6: the price cleaner's contract -/

/-- Restatement of the (amended) specification of the price cleaner, for
refinement comparison with `clean_price_text`: blank input yields the
empty string; otherwise, working on the input with all whitespace removed,
if any digit or comma occurs, the result is the first currency symbol
occurring anywhere (if present) followed by the leftmost maximal
digit/comma run (plus an optional decimal tail) with its commas removed;
otherwise the first 50 characters of the whitespace-stripped input. -/
def cleanPriceSpecL (s : List Char) : List Char :=
  if s.all isWsC then []
  else
    let stripped := s.filter (fun c => !isWsC c)
    if stripped.any isNumCommaC then
      let t := stripped.dropWhile (fun c => !isNumCommaC c)
      let tok := t.takeWhile isNumCommaC ++ dotPart (t.dropWhile isNumCommaC)
      (match stripped.find? isCurC with
       | some sym => [sym]
       | none => []) ++ tok.filter (fun c => !(c = ','))
    else stripped.take 50

/-- String-level version of `cleanPriceSpecL`. -/
def clean_price_spec (s : String) : String :=
  String.mk (cleanPriceSpecL s.data)

theorem cleanPriceL_eq_spec (s : List Char) : cleanPriceL s = cleanPriceSpecL s := by
  by_cases hb : s.all isWsC = true
  · simp [cleanPriceL, cleanPriceSpecL, hb]
  · have hb' : s.all isWsC = false := by
      cases h : s.all isWsC
      · rfl
      · exact absurd h hb
    by_cases hany : (s.filter (fun c => !isWsC c)).any isNumCommaC = true
    · have hnt := numTok_some_spec _ hany
      simp only [cleanPriceL, cleanPriceSpecL, hb', Bool.false_eq_true, if_false, hnt, hany,
        if_true]
    · have hany' : (s.filter (fun c => !isWsC c)).any isNumCommaC = false := by
        cases h : (s.filter (fun c => !isWsC c)).any isNumCommaC
        · rfl
        · exact absurd h hany
      have hnt : numTok (s.filter (fun c => !isWsC c)) = none :=
        (numTok_none_iff _).mpr (fun c hc => by
          have := List.any_eq_false.mp hany' c hc
          simpa using this)
      simp only [cleanPriceL, cleanPriceSpecL, hb', Bool.false_eq_true, if_false, hnt, hany',
        if_false]

/-- C5 counterexample.  The claim states that, when no numeric token is
present (no digit anywhere), the cleaner returns the first 50 characters
of the *input*; the code instead returns the first 50 characters of the
input with all whitespace removed, and a digit-free comma makes the regex
match so that the fallback is skipped entirely: `"a b"` yields `"ab"`
(not `"a b"`), and `"a,b"` yields `""` (not `"a,b"`). -/
theorem clean_price_fallback_cex :
    clean_price_text "a b" = "ab" ∧ ("ab" : String) ≠ "a b" ∧
    clean_price_text "a,b" = "" ∧ ("" : String) ≠ "a,b" := by
  refine ⟨by decide, by decide, by decide, by decide⟩

/-- C5 (amended).  For every input string the price cleaner returns: the
empty string on blank input; otherwise, on the whitespace-stripped input,
if a digit or comma occurs, the first currency symbol found anywhere (if
any) followed by the leftmost maximal digit/comma run and optional decimal
tail with commas removed; otherwise the first 50 characters of the
whitespace-stripped input.  In particular `"$3,250.00"` yields
`"$3250.00"` and `"$3.25"` yields `"$3.25"`. -/
theorem clean_price_characterization :
    (∀ s : String, clean_price_text s = clean_price_spec s) ∧
    clean_price_text "$3,250.00" = "$3250.00" ∧
    clean_price_text "$3.25" = "$3.25" := by
  refine ⟨fun s => ?_, by decide, by decide⟩
  show String.mk (cleanPriceL s.data) = String.mk (cleanPriceSpecL s.data)
  rw [cleanPriceL_eq_spec]

/-- C6 counterexample.  The price cleaner is not idempotent: on `",.5"`
the first application extracts the token `",.5"` and strips the comma,
giving `".5"`; the second application extracts `"5"`. -/
theorem clean_price_not_idempotent_cex :
    clean_price_text ",.5" = ".5" ∧
    clean_price_text (clean_price_text ",.5") = "5" ∧
    ("5" : String) ≠ ".5" := by
  refine ⟨by decide, by decide, by decide⟩

/-- C6 (amended).  The price cleaner is idempotent from the second
application on: for every input string `x`,
`clean(clean(clean x)) = clean(clean x)`.  Plain idempotence
`clean(clean x) = clean x` fails only when the extracted digit/comma run
consists of commas followed by a decimal tail (e.g. `",.5"`). -/
theorem clean_price_twice_idempotent (x : String) :
    clean_price_text (clean_price_text (clean_price_text x)) =
      clean_price_text (clean_price_text x) := by
  show String.mk (cleanPriceL (String.mk (cleanPriceL (String.mk (cleanPriceL x.data)).data)).data) =
    String.mk (cleanPriceL (String.mk (cleanPriceL x.data)).data)
  exact congrArg String.mk (cleanPriceL_stable _ (cleanPriceL_shape _))

/-! ## The Record data model and the Accumulator (main.py lines 21-41) -/

/-- The fixed CSV field names of a scraped part record
(`CSV_HEADERS`, main.py lines 27-32). -/
inductive FieldName : Type
  | MPN | Price_Qty | Unit_Price | MFG_Name | Supplier_Name
  | MFG_Lead_Time | On_Hand_Stock | Stock_Per_Price_Break
  | Packaging_Type | Date_Code | COO | MOQ | Currency
  | Main_Category | Distributor_Block | Disti_Part_Number | Region
deriving DecidableEq, Fintype

/-- A part record: the Python dict with the `CSV_HEADERS` string fields,
plus the `scrape_time` key, absent (`none`) until the record is drained. -/
structure PartRecord where
  f : FieldName → String
  scrape_time : Option String

/-- `add_parts_threadsafe` (main.py lines 36-41): append, under the lock,
exactly those records whose `MPN` and `Supplier_Name` values are truthy
(non-empty strings). -/
def add_parts_threadsafe (all_parts new_parts : List PartRecord) : List PartRecord :=
  all_parts ++ new_parts.filter
    (fun p => decide (p.f FieldName.MPN ≠ "" ∧ p.f FieldName.Supplier_Name ≠ ""))

/-- Accumulator contents reachable by append operations from the empty
initial collection (`self.all_parts = []`). -/
inductive ReachableAcc : List PartRecord → Prop
  | init : ReachableAcc []
  | add (acc new_parts : List PartRecord) :
      ReachableAcc acc → ReachableAcc (add_parts_threadsafe acc new_parts)

/-- C1.  A record of a batch passed to the thread-safe append ends up in
the Accumulator iff it was already there or its `MPN` and `Supplier_Name`
fields are both non-empty; consequently every record in any
append-reachable Accumulator state has non-empty `MPN` and
`Supplier_Name`. -/
theorem add_parts_admission (acc new_parts : List PartRecord) :
    (∀ p, p ∈ add_parts_threadsafe acc new_parts ↔
      p ∈ acc ∨ (p ∈ new_parts ∧ p.f FieldName.MPN ≠ "" ∧ p.f FieldName.Supplier_Name ≠ "")) ∧
    (∀ acc2, ReachableAcc acc2 → ∀ p ∈ acc2,
      p.f FieldName.MPN ≠ "" ∧ p.f FieldName.Supplier_Name ≠ "") := by
  constructor
  · intro p
    simp only [add_parts_threadsafe, List.mem_append, List.mem_filter, decide_eq_true_eq]
  · intro acc2 hreach
    induction hreach with
    | init => intro p hp; simp at hp
    | add acc' new' _ ih =>
      intro p hp
      rcases List.mem_append.mp hp with h1 | h2
      · exact ih p h1
      · have := (List.mem_filter.mp h2).2
        simpa [decide_eq_true_eq] using this

/-- A well-formed record: non-empty `MPN` and `Supplier_Name`, everything
else empty, not yet drained. -/
def wRecGood : PartRecord :=
  { f := fun fn => match fn with
      | FieldName.MPN => "AB123456"
      | FieldName.Supplier_Name => "Mouser"
      | _ => ""
    scrape_time := none }

/-- A record with all fields empty, rejected by the admission filter. -/
def wRecBad : PartRecord :=
  { f := fun _ => "", scrape_time := none }

theorem add_parts_admission_witness :
    wRecGood ∈ add_parts_threadsafe [] [wRecGood, wRecBad] ∧
    ¬ wRecBad ∈ add_parts_threadsafe [] [wRecGood, wRecBad] ∧
    wRecGood.f FieldName.MPN ≠ "" ∧ wRecGood.f FieldName.Supplier_Name ≠ "" := by
  have h := add_parts_admission [] [wRecGood, wRecBad]
  have hmem : wRecGood ∈ add_parts_threadsafe [] [wRecGood, wRecBad] :=
    (h.1 wRecGood).mpr (Or.inr ⟨by simp, by decide, by decide⟩)
  refine ⟨hmem, ?_, ?_⟩
  · intro hbad
    rcases (h.1 wRecBad).mp hbad with h1 | h2
    · simp at h1
    · exact h2.2.1 rfl
  · exact h.2 _ (ReachableAcc.add _ _ ReachableAcc.init) wRecGood hmem

/-! ## The Persister: `save_csv` (main.py lines 710-750) -/

/-- The per-field cleaning in `save_csv` (main.py lines 729-732):
`re.sub(r'[\r\n\t]+', ' ', v)`, then `re.sub(r'\s+', ' ', v)`, then
`.strip()`, then truncation to 100 characters. -/
def normalizeField (s : String) : String :=
  String.mk ((pyStrip (collapseWs s.data)).take 100)

/-- The in-place mutation `save_csv` applies to each not-yet-persisted
record before attempting the file write: every field is normalized and
the persistence timestamp is attached (main.py lines 725-733). -/
def cleanAndStamp (now : String) (p : PartRecord) : PartRecord :=
  { f := fun fn => normalizeField (p.f fn), scrape_time := some now }

/-- `save_csv` (main.py lines 710-750), with `save_filename` set.  Input:
the Accumulator contents, whether the file write succeeds, and the current
timestamp.  Output: the new Accumulator contents and the rows appended to
the CSV file (empty when the write fails; the single `writerows` call is
modelled as all-or-nothing).  The cleaning-and-stamping loop runs *before*
the write is attempted, and the `except` branch only logs. -/
def save_csv (all_parts : List PartRecord) (writeOk : Bool) (now : String) :
    List PartRecord × List PartRecord :=
  if all_parts.isEmpty then (all_parts, [])
  else if (all_parts.filter (fun p => p.scrape_time.isNone)).isEmpty then (all_parts, [])
  else
    let flagged := all_parts.map
      (fun p => if p.scrape_time.isNone then cleanAndStamp now p else p)
    let written := (all_parts.filter (fun p => p.scrape_time.isNone)).map (cleanAndStamp now)
    (flagged, if writeOk then written else [])

/-- Case split for `save_csv`: either it returns unchanged with nothing
written (empty accumulator, or no pending records — and then every record
was already stamped), or it stamps in place and writes on success. -/
theorem save_csv_cases (parts : List PartRecord) (w : Bool) (now : String) :
    (save_csv parts w now = (parts, []) ∧ ∀ p ∈ parts, p.scrape_time.isSome = true) ∨
    save_csv parts w now =
      (parts.map (fun p => if p.scrape_time.isNone then cleanAndStamp now p else p),
       if w then (parts.filter (fun p => p.scrape_time.isNone)).map (cleanAndStamp now)
       else []) := by
  by_cases h1 : parts.isEmpty
  · left
    refine ⟨by simp [save_csv, h1], ?_⟩
    intro p hp
    rw [List.isEmpty_iff] at h1
    subst h1
    simp at hp
  · by_cases h2 : (parts.filter (fun p => p.scrape_time.isNone)).isEmpty
    · left
      refine ⟨by simp [save_csv, h1, h2], ?_⟩
      intro p hp
      rw [List.isEmpty_iff, List.filter_eq_nil_iff] at h2
      have := h2 p hp
      cases hst : p.scrape_time with
      | none => exact absurd (by simp [hst]) this
      | some t => simp
    · right
      simp [save_csv, h1, h2]

theorem save_csv_all_stamped (parts : List PartRecord) (w : Bool) (now : String) :
    ∀ p ∈ (save_csv parts w now).1, p.scrape_time.isSome = true := by
  rcases save_csv_cases parts w now with ⟨heq, hall⟩ | heq
  · rw [heq]
    exact hall
  · rw [heq]
    intro p hp
    obtain ⟨q, _, rfl⟩ := List.mem_map.mp hp
    cases hst : q.scrape_time with
    | none => simp [hst, cleanAndStamp]
    | some t => simp [hst]

theorem save_csv_noop_of_stamped (parts : List PartRecord) (w : Bool) (now : String)
    (h : ∀ p ∈ parts, p.scrape_time.isSome = true) :
    save_csv parts w now = (parts, []) := by
  by_cases h1 : parts.isEmpty
  · simp [save_csv, h1]
  · have h2 : (parts.filter (fun p => p.scrape_time.isNone)).isEmpty = true := by
      rw [List.isEmpty_iff, List.filter_eq_nil_iff]
      intro p hp
      simp [Option.isNone_iff_eq_none]
      intro hn
      have := h p hp
      rw [hn] at this
      simp at this
    simp [save_csv, h1, h2]

/-- C2 counterexample.  A single pending record; the write fails.  The
claim predicts the next drain selects and retries that same record; in
the code the cleaning loop has already attached `scrape_time` before the
write was attempted, so after the failure no record is pending and the
next drain writes nothing — while a first successful write would have
written exactly one row. -/
theorem save_csv_failed_write_no_retry_cex :
    ([wRecGood].filter (fun p => p.scrape_time.isNone)).length = 1 ∧
    (save_csv [wRecGood] true "2026-10-12 00:00").2.length = 1 ∧
    ((save_csv [wRecGood] false "2026-10-12 00:00").1.filter
      (fun p => p.scrape_time.isNone)).length = 0 ∧
    (save_csv ((save_csv [wRecGood] false "2026-10-12 00:00").1)
      true "2026-10-12 00:05").2.length = 0 := by
  refine ⟨by decide, by decide, by decide, by decide⟩

/-- C2 (amended).  A drain whose file write fails does not clear the
in-memory Accumulator (the record count is preserved), but the affected
records have already been normalized and stamped with the persistence
timestamp before the write attempt; hence after any drain every record
carries a timestamp, nothing is written on failure, and the next drain is
a no-op rather than a retry of the failed records. -/
theorem save_csv_marks_before_write (parts : List PartRecord) (w : Bool) (now : String) :
    (save_csv parts w now).1.length = parts.length ∧
    (∀ p ∈ (save_csv parts w now).1, p.scrape_time.isSome = true) ∧
    (save_csv parts false now).2 = [] ∧
    (∀ w2 now2, save_csv ((save_csv parts w now).1) w2 now2 =
      ((save_csv parts w now).1, [])) := by
  refine ⟨?_, save_csv_all_stamped parts w now, ?_, ?_⟩
  · rcases save_csv_cases parts w now with ⟨heq, _⟩ | heq
    · rw [heq]
    · rw [heq]
      simp
  · rcases save_csv_cases parts false now with ⟨heq, _⟩ | heq
    · rw [heq]
    · rw [heq]
      simp
  · intro w2 now2
    exact save_csv_noop_of_stamped _ w2 now2 (save_csv_all_stamped parts w now)

theorem save_csv_marks_before_write_witness :
    (save_csv [wRecGood] false "2026-10-12 00:00").1.length = 1 ∧
    (∀ p ∈ (save_csv [wRecGood] false "2026-10-12 00:00").1,
      p.scrape_time.isSome = true) ∧
    (save_csv [wRecGood] false "2026-10-12 00:00").2 = [] ∧
    save_csv ((save_csv [wRecGood] false "2026-10-12 00:00").1) true "2026-10-12 00:05" =
      ((save_csv [wRecGood] false "2026-10-12 00:00").1, []) := by
  have h := save_csv_marks_before_write [wRecGood] false "2026-10-12 00:00"
  exact ⟨h.1, h.2.1, h.2.2.1, h.2.2.2 true "2026-10-12 00:05"⟩

/-- A record whose supplier-name field contains a double space: valid for
admission, but not fixed by the drain-time normalization. -/
def wRecMessy : PartRecord :=
  { f := fun fn => match fn with
      | FieldName.MPN => "AB123456"
      | FieldName.Supplier_Name => "Digi  Key"
      | _ => ""
    scrape_time := none }

/-- C3 counterexample.  A record whose supplier name contains a double
space is admitted unchanged, but the drain step (even a successful one)
rewrites the field in place to its whitespace-collapsed form, so a
previously-set field does not keep its creation-time value. -/
theorem save_csv_mutates_fields_cex :
    wRecMessy.f FieldName.Supplier_Name = "Digi  Key" ∧
    (save_csv [wRecMessy] true "2026-10-12 00:00").1.map
      (fun p => p.f FieldName.Supplier_Name) = ["Digi Key"] ∧
    ("Digi Key" : String) ≠ "Digi  Key" := by
  refine ⟨by decide, by decide, by decide⟩

/-- C3 (amended).  Records are never mutated after creation except by the
drain step, which — in addition to attaching the persistence timestamp —
normalizes every field in place (whitespace/control runs collapsed to a
space, ends stripped, truncated to 100 characters); a field whose value is
already in normalized form keeps its creation-time value, and records
already drained are left untouched. -/
theorem save_csv_frame_normalize (parts : List PartRecord) (w : Bool) (now : String) :
    (save_csv parts w now).1.length = parts.length ∧
    (∀ (i : Nat) (h : i < parts.length) (h2 : i < (save_csv parts w now).1.length)
      (fn : FieldName),
      (((save_csv parts w now).1.get ⟨i, h2⟩).f fn =
          normalizeField ((parts.get ⟨i, h⟩).f fn) ∨
        (save_csv parts w now).1.get ⟨i, h2⟩ = parts.get ⟨i, h⟩) ∧
      (normalizeField ((parts.get ⟨i, h⟩).f fn) = (parts.get ⟨i, h⟩).f fn →
        ((save_csv parts w now).1.get ⟨i, h2⟩).f fn = (parts.get ⟨i, h⟩).f fn)) := by
  rcases save_csv_cases parts w now with ⟨heq, _⟩ | heq
  · have hsame : (save_csv parts w now).1 = parts := by rw [heq]
    constructor
    · rw [hsame]
    · intro i h h2 fn
      have hget : (save_csv parts w now).1.get ⟨i, h2⟩ = parts.get ⟨i, h⟩ :=
        List.get_of_eq hsame ⟨i, h2⟩
      exact ⟨Or.inr hget, fun _ => by rw [hget]⟩
  · have hmap : (save_csv parts w now).1 = parts.map
        (fun p => if p.scrape_time.isNone = true then cleanAndStamp now p else p) := by
      rw [heq]
    constructor
    · rw [hmap]
      simp
    · intro i h h2 fn
      have hget : (save_csv parts w now).1.get ⟨i, h2⟩ =
          if (parts.get ⟨i, h⟩).scrape_time.isNone = true
          then cleanAndStamp now (parts.get ⟨i, h⟩) else parts.get ⟨i, h⟩ := by
        have he := List.get_of_eq hmap ⟨i, h2⟩
        rw [he, List.get_map]
      by_cases hst : (parts.get ⟨i, h⟩).scrape_time.isNone = true
      · have hv : (save_csv parts w now).1.get ⟨i, h2⟩ =
            cleanAndStamp now (parts.get ⟨i, h⟩) := by
          rw [hget, if_pos hst]
        refine ⟨Or.inl (by rw [hv]; rfl), fun hnorm => ?_⟩
        rw [hv]
        show normalizeField ((parts.get ⟨i, h⟩).f fn) = (parts.get ⟨i, h⟩).f fn
        exact hnorm
      · have hv : (save_csv parts w now).1.get ⟨i, h2⟩ = parts.get ⟨i, h⟩ := by
          rw [hget, if_neg hst]
        exact ⟨Or.inr hv, fun _ => by rw [hv]⟩

theorem save_csv_frame_normalize_witness :
    (save_csv [wRecGood] true "2026-10-12 00:00").1.length = 1 ∧
    ((save_csv [wRecGood] true "2026-10-12 00:00").1.get
      ⟨0, by decide⟩).f FieldName.Supplier_Name = "Mouser" := by
  have h := save_csv_frame_normalize [wRecGood] true "2026-10-12 00:00"
  refine ⟨h.1, ?_⟩
  have h2 := (h.2 0 (by decide) (by decide) FieldName.Supplier_Name).2 (by decide)
  exact h2.trans (by decide)

/-! ## Row Extractor: regex field extractors (main.py lines 408-505, 535-585) -/

/-- `re.search` position scanning: try the pattern at every suffix, left
to right. -/
def scanFor {α : Type} (f : List Char → Option α) : List Char → Option α
  | [] => f []
  | c :: t =>
    match f (c :: t) with
    | some a => some a
    | none => scanFor f t

/-- Case-insensitive prefix test (ASCII), as `re.I` literal matching. -/
def ciPrefix (pat l : List Char) : Bool :=
  (pat.map toLowerC).isPrefixOf (l.map toLowerC)

/-- The token class `[A-Za-z0-9\-\:_]` of the `DISTI` regex. -/
def isDistiTokC (c : Char) : Bool :=
  isAlphaC c || isDigitC c || c = '-' || c = ':' || c = '_'

/-- One position of `re.search(r'DISTI\s*#?\s*([A-Za-z0-9\-\:_]+)', t)`
(case-sensitive): the literal, optional whitespace, an optional `#`,
optional whitespace, then a non-empty token. -/
def distiAt (l : List Char) : Option (List Char) :=
  if "DISTI".data.isPrefixOf l then
    let r1 := (l.drop 5).dropWhile isWsC
    let r2 := match r1 with
      | '#' :: t => t
      | _ => r1
    let tok := (r2.dropWhile isWsC).takeWhile isDistiTokC
    if tok.isEmpty then none else some tok
  else none

/-- Group 1 of the `DISTI` regex over the whole row text. -/
def distiOf (row_text : String) : Option String :=
  (scanFor distiAt row_text.data).map String.mk

/-- One alternative of
`re.search(r'(Americas|Europe|Asia|Global)\s*[-—]\s*\d+', t, re.I)`:
the region word, optional whitespace, a dash, optional whitespace, a
digit.  Group 1 is the matched slice in its original casing. -/
def regionTryAlt (alt : List Char) (l : List Char) : Option (List Char) :=
  if ciPrefix alt l then
    let rest := (l.drop alt.length).dropWhile isWsC
    match rest with
    | c :: t =>
      if (c = '-' || c = '—') &&
         !(((t.dropWhile isWsC).takeWhile isDigitC).isEmpty) then
        some (l.take alt.length)
      else none
    | [] => none
  else none

/-- One position of the region regex: the four alternatives in order. -/
def regionAt (l : List Char) : Option (List Char) :=
  [regionTryAlt "Americas".data l, regionTryAlt "Europe".data l,
   regionTryAlt "Asia".data l, regionTryAlt "Global".data l].findSome? id

/-- Group 1 of the region regex over the whole row text. -/
def regionOf (row_text : String) : Option String :=
  (scanFor regionAt row_text.data).map String.mk

/-- The ordered packaging pattern list of `_get_enhanced_packaging_type`
(main.py lines 447-452); inner lists are regex alternatives. -/
def packagingPatterns : List (List (List Char)) :=
  [["Bulk".data], ["Tray".data], ["Reel".data], ["Tape".data], ["Cut Tape".data],
   ["Each".data], ["Bag".data], ["Box".data], ["Tube".data], ["Rail".data],
   ["Ammo Pack".data, "Ammo".data], ["Carrier Tape".data],
   ["Digi-Reel".data, "MouseReel".data], ["Cut Strip".data], ["Digi-Stake".data],
   ["Loose".data], ["Plastic Box".data], ["Anti-Static Bag".data, "ESD".data]]

/-- One position of a case-insensitive literal-alternation search; the
result is the matched slice in its original casing. -/
def ciAltsAt (alts : List (List Char)) (l : List Char) : Option (List Char) :=
  alts.findSome? (fun alt => if ciPrefix alt l then some (l.take alt.length) else none)

/-- `re.search` for a literal alternation with `re.I`. -/
def ciSearchAlts (alts : List (List Char)) (l : List Char) : Option (List Char) :=
  scanFor (ciAltsAt alts) l

/-- `_get_enhanced_packaging_type` (main.py lines 442-463): first matching
pattern in priority order, stripped; else the literal `Container` if that
word occurs (case-sensitively); else empty. -/
def packagingOf (row_text : String) : String :=
  match packagingPatterns.findSome? (fun alts => ciSearchAlts alts row_text.data) with
  | some m => String.mk (pyStrip m)
  | none => if hasSubstr "Container".data row_text.data then "Container" else ""

/-- `\b` after a matched word: the next character is absent or non-word. -/
def wordBoundaryAfter (rest : List Char) : Bool :=
  match rest with
  | [] => true
  | c :: _ => !isWordC c

/-- One time unit of `(\d+)\s*(?:weeks?|days?)\b`: the unit word with its
trailing word boundary. -/
def unitBoundary (u rest : List Char) : Bool :=
  ciPrefix u rest && wordBoundaryAfter (rest.drop u.length)

/-- One position of `re.search(r'(\d+)\s*(?:weeks?|days?)\b', t, re.I)`:
a maximal digit run, optional whitespace, a unit, a word boundary.
Group 1 is the digit run. -/
def leadAt (l : List Char) : Option (List Char) :=
  match l with
  | [] => none
  | c :: _ =>
    if isDigitC c then
      let run := l.takeWhile isDigitC
      let rest := (l.dropWhile isDigitC).dropWhile isWsC
      if ["weeks".data, "week".data, "days".data, "day".data].any
          (fun u => unitBoundary u rest) then some run
      else none
    else none

/-- Group 1 of the lead-time regex over the whole row text. -/
def leadOf (row_text : String) : Option String :=
  (scanFor leadAt row_text.data).map String.mk

/-- One position of
`re.search(r'(?:Date Code|DC|Lot)[:\s]*(\d{4}|\d{2}\d{2})', t, re.I)`:
one of the key literals, colons/whitespace, then exactly four digits
(both alternatives of the group denote four digits). -/
def dateAt (l : List Char) : Option (List Char) :=
  match ["Date Code".data, "DC".data, "Lot".data].findSome?
      (fun k => if ciPrefix k l then some k else none) with
  | none => none
  | some k =>
    let rest := (l.drop k.length).dropWhile (fun c => c = ':' || isWsC c)
    let ds := rest.takeWhile isDigitC
    if 4 ≤ ds.length then some (ds.take 4) else none

/-- Group 1 of the date-code regex over the whole row text. -/
def dateOf (row_text : String) : Option String :=
  (scanFor dateAt row_text.data).map String.mk

/-- The key part of `(?:MOQ|Min\s+Qty?)`: number of characters consumed,
if it matches at the head. -/
def moqKeyAt (l : List Char) : Option Nat :=
  if ciPrefix "MOQ".data l then some 3
  else if ciPrefix "Min".data l then
    let ws := (l.drop 3).takeWhile isWsC
    if ws.isEmpty then none
    else
      let rest := (l.drop 3).dropWhile isWsC
      if ciPrefix "Qty".data rest then some (3 + ws.length + 3)
      else if ciPrefix "Qt".data rest then some (3 + ws.length + 2)
      else none
  else none

/-- One position of
`re.search(r'(?:MOQ|Min\s+Qty?)[:\s]*(\d{1,5}(?:,\d{3})?)', t, re.I)`:
the key, colons/whitespace, one to five digits, optionally a comma with
exactly three more digits. -/
def moqAt (l : List Char) : Option (List Char) :=
  match moqKeyAt l with
  | none => none
  | some n =>
    let rest := (l.drop n).dropWhile (fun c => c = ':' || isWsC c)
    let run := rest.takeWhile isDigitC
    let d := run.take 5
    if d.isEmpty then none
    else if run.length ≤ 5 then
      match rest.drop d.length with
      | ',' :: t =>
        if 3 ≤ (t.takeWhile isDigitC).length then
          some (d ++ ',' :: (t.takeWhile isDigitC).take 3)
        else some d
      | _ => some d
    else some d

/-- Group 1 of the MOQ regex over the whole row text. -/
def moqOf (row_text : String) : Option String :=
  (scanFor moqAt row_text.data).map String.mk

/-- One position of `re.search(r'COO[:\s]*([A-Za-z\s]{2,40})', t, re.I)`.
`[:\s]*` is greedy but backtracks, giving trailing whitespace back to the
capture group until the group reaches two characters (capped at 40). -/
def cooAt (l : List Char) : Option (List Char) :=
  if ciPrefix "COO".data l then
    let rest := l.drop 3
    let run := rest.takeWhile (fun c => c = ':' || isWsC c)
    (List.range (run.length + 1)).findSome? (fun g =>
      let tail := rest.drop (run.length - g)
      let grp := (tail.takeWhile (fun c => isAlphaC c || isWsC c)).take 40
      if 2 ≤ grp.length then some grp else none)
  else none

/-- Group 1 of the COO regex over the whole row text. -/
def cooGroupOf (row_text : String) : Option String :=
  (scanFor cooAt row_text.data).map String.mk

example : distiOf "DISTI # AB-12" = some "AB-12" := by decide
example : distiOf "DISTI#x_1:2" = some "x_1:2" := by decide
example : distiOf "DISTI  # #a" = none := by decide
example : regionOf "ships Americas - 12" = some "Americas" := by decide
example : regionOf "Global—3" = some "Global" := by decide
example : regionOf "Asia -x" = none := by decide
example : packagingOf "Carrier Tape" = "Tape" := by decide
example : packagingOf "CUT STRIP here" = "CUT STRIP" := by decide
example : packagingOf "in a container" = "" := by decide
example : packagingOf "Container ship" = "Container" := by decide
example : packagingOf "ammo pack" = "ammo pack" := by decide
example : leadOf "12 weeks" = some "12" := by decide
example : leadOf "5 weekss" = none := by decide
example : leadOf "ship 3 days!" = some "3" := by decide
example : leadOf "1 2weeks" = some "2" := by decide
example : dateOf "Date Code: 2023" = some "2023" := by decide
example : dateOf "DC 12345" = some "1234" := by decide
example : dateOf "Lot:456" = none := by decide
example : moqOf "MOQ: 12,345" = some "12,345" := by decide
example : moqOf "Min  Qt 7" = some "7" := by decide
example : moqOf "MOQ123456,789" = some "12345" := by decide
example : moqOf "MOQ 12,3456" = some "12,345" := by decide
example : moqOf "MOQ 1234,56" = some "1234" := by decide
example : cooGroupOf "COO: a" = some " a" := by decide
example : cooGroupOf "COO: USA" = some "USA" := by decide
example : cooGroupOf "COO: :x" = none := by decide

/-! ## `_clean_country` (main.py lines 408-440) -/

/-- `re.sub(r'[,.;:]+$', '', txt)`: drop a trailing run of `,.;:`. -/
def stripTrailingPunct (l : List Char) : List Char :=
  (l.reverse.dropWhile (fun c => c = ',' || c = '.' || c = ';' || c = ':')).reverse

/-- Length of a keyword alternative of
`\b(MIN\s*QTY|MOQ|ROHS?|LF|LEAD\s*FREE|STD|STOCK|QTY|PCS?)\b` matched at
the head of `l`, if any (`re.I`; at any one position at most one
alternative can both match and pass its trailing word boundary). -/
def countryKeyLen (l : List Char) : Option Nat :=
  if ciPrefix "MIN".data l && ciPrefix "QTY".data ((l.drop 3).dropWhile isWsC) then
    some (3 + ((l.drop 3).takeWhile isWsC).length + 3)
  else if ciPrefix "MOQ".data l then some 3
  else if ciPrefix "ROHS".data l then some 4
  else if ciPrefix "ROH".data l then some 3
  else if ciPrefix "LF".data l then some 2
  else if ciPrefix "LEAD".data l && ciPrefix "FREE".data ((l.drop 4).dropWhile isWsC) then
    some (4 + ((l.drop 4).takeWhile isWsC).length + 4)
  else if ciPrefix "STD".data l then some 3
  else if ciPrefix "STOCK".data l then some 5
  else if ciPrefix "QTY".data l then some 3
  else if ciPrefix "PCS".data l then some 3
  else if ciPrefix "PC".data l then some 2
  else none

/-- `.*` does not cross a newline, and `$` matches only at the end or
just before a final newline: the tail may contain a newline only as its
last character. -/
def noMidNewline (tail : List Char) : Bool :=
  !(tail.dropLast.contains '\n')

/-- `re.sub(r'\b(MIN\s*QTY|...)\b.*$', '', txt, flags=re.I)`: scan left to
right carrying the previous character for the left word boundary; at the
leftmost keyword with both boundaries whose tail has no interior newline,
drop everything from the keyword on, keeping a final newline (which is
where `$` matched). -/
def cutNoise : Option Char → List Char → List Char
  | _, [] => []
  | prev, c :: t =>
    let lb := match prev with
      | none => true
      | some pc => !isWordC pc
    match countryKeyLen (c :: t) with
    | some n =>
      if lb && wordBoundaryAfter ((c :: t).drop n) && noMidNewline ((c :: t).drop n) then
        if ((c :: t).drop n).contains '\n' then ['\n'] else []
      else c :: cutNoise (some c) t
    | none => c :: cutNoise (some c) t

/-- The garbage keyword list of `_clean_country`. -/
def garbageKeywords : List (List Char) :=
  ["cookies".data, "cookie".data, "tracking".data, "terms".data, "policy".data]

/-- The separator class of `re.split(r'[/|(),]+', txt)`. -/
def isSepC (c : Char) : Bool :=
  c = '/' || c = '|' || c = '(' || c = ')' || c = ','

/-- Maximal separator-free segments of a list (the non-empty results of
the `re.split` above).  First argument: current segment, reversed. -/
def segAux : List Char → List Char → List (List Char)
  | cur, [] => if cur.isEmpty then [] else [cur.reverse]
  | cur, c :: t =>
    if isSepC c then
      if cur.isEmpty then segAux [] t else cur.reverse :: segAux [] t
    else segAux (c :: cur) t

/-- `_clean_country` (main.py lines 408-440).  `txt.isnumeric()` is
modelled by the ASCII digit test (after the letter filter the string can
contain only letters and spaces, so the test can only reject the empty
string, which the length check rejects anyway). -/
def _clean_country (text : String) : String :=
  if text = "" then ""
  else
    let t2 := pyStrip (stripTrailingPunct (pyStrip text.data))
    let t3 := cutNoise none t2
    if garbageKeywords.any (fun g => hasSubstr g (t3.map toLowerC)) then ""
    else
      let low := t3.map toLowerC
      if low = "us".data || low = "usa".data || low = "u.s.a".data || low = "u.s.".data then
        "USA"
      else if low = "uk".data || low = "united kingdom".data then "United Kingdom"
      else
        let segs := ((segAux [] t3).map pyStrip).filter (fun p => !p.isEmpty)
        let t4 := match segs.getLast? with
          | some s => pyStrip s
          | none => t3
        let t6 := pyStrip (collapseWs (pyStrip (t4.filter (fun c => isAlphaC c || isWsC c))))
        if decide (2 ≤ t6.length) && decide (t6.length ≤ 40) && !(pyIsdigit t6) then
          String.mk t6
        else ""

example : _clean_country " Germany " = "Germany" := by decide
example : _clean_country " a" = "" := by decide
example : _clean_country "US " = "USA" := by decide
example : _clean_country "USA." = "USA" := by decide
example : _clean_country "Germany / Berlin," = "Berlin" := by decide
example : _clean_country "China STOCK" = "China" := by decide
example : _clean_country "u.s.a" = "USA" := by decide
example : _clean_country "Made in (Japan)" = "Japan" := by decide
example : _clean_country "cookies policy CN" = "" := by decide
example : _clean_country "UKX" = "UKX" := by decide
example : _clean_country "uk" = "United Kingdom" := by decide
example : _clean_country "Germany ROHS compliant" = "Germany" := by decide
example : _clean_country "China\nSTOCK 3" = "China" := by decide
example : _clean_country "US MOQ 5\n" = "US" := by decide
example : _clean_country "Taiwan R.O.C." = "Taiwan ROC" := by decide

/-! ## Row Extractor: rows and records (main.py lines 465-625) -/

/-- One rendered distributor row (`tr.row[data-distributor_name]`), as
exposed by the rendering engine: attribute lookups return `none` when the
attribute is absent, sub-element lookups return `none` when the element is
missing (a raised lookup is caught and skipped by the code).  A price-list
item carries the text of its `.label` and `.value` sub-elements. -/
structure DistRow where
  data_distributor_name : Option String
  data_stock : Option String
  td_stock : Option String
  data_instock : Option String
  text : String
  priceItems : List (Option String × Option String)

/-- Method 3 of the stock fallback chain: a digit-only `data-instock`
attribute (main.py lines 494-501). -/
def stockFromInstock (tr : DistRow) : String :=
  match tr.data_instock with
  | some ds =>
    if !(ds = "") && pyIsdigit (pyStrip ds.data) then String.mk (pyStrip ds.data) else ""
  | none => ""

/-- Method 2 of the stock fallback chain: digit-only text of the
`td.td-stock` cell (main.py lines 483-491). -/
def stockFromTd (tr : DistRow) : String :=
  match tr.td_stock with
  | some txt =>
    if !(pyStrip txt.data).isEmpty && pyIsdigit (pyStrip txt.data) then
      String.mk (pyStrip txt.data)
    else stockFromInstock tr
  | none => stockFromInstock tr

/-- `extract_perfect_stock` (main.py lines 465-505): `data-stock`
attribute, then the stock cell, then `data-instock`; each fallback is
accepted only when its stripped value is a non-empty digit string;
otherwise the empty string. -/
def extract_perfect_stock (tr : DistRow) : String :=
  match tr.data_stock with
  | some ds =>
    if !(ds = "") && pyIsdigit (pyStrip ds.data) then String.mk (pyStrip ds.data)
    else stockFromTd tr
  | none => stockFromTd tr

/-- The base record one distributor row contributes (main.py lines
545-585): all fields default to empty, then the supplier, stock and
regex-extracted metadata fields are filled in. -/
def buildBase (mpn mfg_name main_cat supplier_clean distributor_name stock
    row_text : String) : PartRecord :=
  { f := fun fn => match fn with
      | FieldName.MPN => mpn
      | FieldName.MFG_Name => mfg_name
      | FieldName.Main_Category => main_cat
      | FieldName.Supplier_Name => supplier_clean
      | FieldName.Distributor_Block => distributor_name
      | FieldName.On_Hand_Stock => stock
      | FieldName.Stock_Per_Price_Break => stock
      | FieldName.Disti_Part_Number => (distiOf row_text).getD ""
      | FieldName.Region => (regionOf row_text).getD ""
      | FieldName.Packaging_Type => packagingOf row_text
      | FieldName.MFG_Lead_Time =>
        match leadOf row_text with
        | some d => d ++ " weeks"
        | none => ""
      | FieldName.Date_Code => (dateOf row_text).getD ""
      | FieldName.MOQ => (moqOf row_text).getD ""
      | FieldName.COO =>
        match cooGroupOf row_text with
        | some g => _clean_country g
        | none => ""
      | FieldName.Price_Qty => ""
      | FieldName.Unit_Price => ""
      | FieldName.Currency => ""
    scrape_time := none }

/-- Price-break expansion for one list item (main.py lines 590-613): the
item is skipped when a sub-element is missing; the quantity is the digits
of the label; the price is the cleaned value; a pair is emitted only when
both are non-empty and the manufacturer name carries no pollution
keyword, as a copy of the base record with quantity, unit price and
detected currency filled in. -/
def processItem (mfg_name : String) (base : PartRecord)
    (li : Option String × Option String) : Option PartRecord :=
  match li.1, li.2 with
  | some lq, some lv =>
    let qty_num := String.mk ((pyStrip lq.data).filter isDigitC)
    let clean_price := clean_price_text (String.mk (pyStrip lv.data))
    if qty_num ≠ "" ∧ clean_price ≠ "" then
      if hasPollution mfg_name then none
      else
        let f2 : FieldName → String := fun x =>
          if x = FieldName.Price_Qty then qty_num
          else if x = FieldName.Unit_Price then clean_price
          else if x = FieldName.Currency then
            get_currency_from_price (String.mk (pyStrip lv.data))
          else base.f x
        some { base with f := f2 }
    else none
  | _, _ => none

/-- The body of the per-row loop of `extract_rows_from_search_page`
(main.py lines 535-618): skip rows without a distributor-name attribute or
with a too-short cleaned supplier name; with a price list, emit one record
per valid pair; without one, emit the base record only when both supplier
and stock are non-empty. -/
def processRow (mpn mfg_name main_cat : String) (tr : DistRow) : List PartRecord :=
  let distributor_name := tr.data_distributor_name.getD ""
  if distributor_name = "" then []
  else
    let supplier_clean := clean_mfg_name distributor_name
    if supplier_clean.length < 2 then []
    else
      let stock := extract_perfect_stock tr
      let base := buildBase mpn mfg_name main_cat supplier_clean distributor_name stock
        tr.text
      if tr.priceItems.isEmpty then
        if base.f FieldName.Supplier_Name ≠ "" ∧ stock ≠ "" then [base] else []
      else
        tr.priceItems.filterMap (processItem mfg_name base)

/-- `extract_rows_from_search_page` (main.py lines 507-625).  The page is
given by its distributor rows; `page_mfg` is the result of
`_extract_real_manufacturer` on the rendered page (a query of the
external rendering engine over detail links and the `h1` heading), which
the code combines with the category-path fallback and the pollution
guard before the row loop. -/
def extract_rows_from_search_page (mpn category_path page_mfg : String)
    (rows : List DistRow) : List PartRecord :=
  let pc := parse_category_mfg category_path
  let main_cat := get_main_category_only pc.1
  let mfg0 := if page_mfg = "" then pc.2 else page_mfg
  let mfg_name := if hasPollution mfg0 then "" else mfg0
  (rows.map (processRow mpn mfg_name main_cat)).flatten

/-- A row whose supplier name cleans to the empty string (keyword
`data`), with one perfectly valid price pair. -/
def wRowSkippedSupplier : DistRow :=
  { data_distributor_name := some "Data Inc"
    data_stock := none
    td_stock := none
    data_instock := none
    text := ""
    priceItems := [(some "1", some "$5")] }

/-- A row with no price list at all but with stock: the fallback path. -/
def wRowFallback : DistRow :=
  { data_distributor_name := some "Mouser"
    data_stock := some "5"
    td_stock := none
    data_instock := none
    text := ""
    priceItems := [] }

/-- A row with two valid price pairs. -/
def wRowGoodPrices : DistRow :=
  { data_distributor_name := some "Mouser"
    data_stock := some "42"
    td_stock := none
    data_instock := none
    text := ""
    priceItems := [(some "1", some "$5.00"), (some "10", some "$4.50")] }

example : (processRow "AB123456" "Vishay" "Connectors" wRowGoodPrices).length = 2 := by
  decide
example : (processRow "AB123456" "Vishay" "Connectors" wRowGoodPrices).map
    (fun r => r.f FieldName.Unit_Price) = ["$5.00", "$4.50"] := by decide
example : (processRow "AB123456" "Vishay" "Connectors" wRowFallback).map
    (fun r => r.f FieldName.On_Hand_Stock) = ["5"] := by decide
example : extract_perfect_stock wRowGoodPrices = "42" := by decide
example : extract_perfect_stock
    { wRowFallback with data_stock := some "n/a", td_stock := some " 17 " } = "17" := by
  decide

/-! ## C7 and C10: properties of the Row Extractor -/

theorem pyStrip_no_ws (l : List Char) (h : ∀ c ∈ l, isWsC c = false) : pyStrip l = l := by
  unfold pyStrip
  have h1 : l.dropWhile isWsC = l := by
    cases l with
    | nil => rfl
    | cons a t => exact List.dropWhile_cons_of_neg (by simp [h a (by simp)])
  have h2 : l.reverse.dropWhile isWsC = l.reverse := by
    cases hrev : l.reverse with
    | nil => rfl
    | cons a t =>
      refine List.dropWhile_cons_of_neg ?_
      have ha : a ∈ l := by
        rw [← List.mem_reverse, hrev]
        simp
      simp [h a ha]
  rw [h1, h2, List.reverse_reverse]

theorem filterMap_length_of_all_some {α β : Type} (g : α → Option β) (l : List α)
    (h : ∀ x ∈ l, (g x).isSome = true) : (l.filterMap g).length = l.length := by
  induction l with
  | nil => rfl
  | cons a t ih =>
    obtain ⟨b, hb⟩ := Option.isSome_iff_exists.mp (h a (by simp))
    rw [List.filterMap_cons, hb]
    simp only [List.length_cons]
    rw [ih (fun x hx => h x (by simp [hx]))]

/-- Any record emitted by the price-break expansion agrees with the base
record on every field except quantity, unit price and currency. -/
theorem processItem_fields (mfg_name : String) (base : PartRecord)
    (li : Option String × Option String) (r : PartRecord)
    (h : processItem mfg_name base li = some r) :
    ∀ fn, fn ≠ FieldName.Price_Qty → fn ≠ FieldName.Unit_Price →
      fn ≠ FieldName.Currency → r.f fn = base.f fn := by
  obtain ⟨o1, o2⟩ := li
  cases o1 with
  | none => simp [processItem] at h
  | some lq =>
    cases o2 with
    | none => simp [processItem] at h
    | some lv =>
      simp only [processItem] at h
      split at h
      · split at h
        · exact absurd h (by simp)
        · have hr := Option.some.inj h
          subst hr
          intro fn h1 h2 h3
          show (if fn = FieldName.Price_Qty then _
            else if fn = FieldName.Unit_Price then _
            else if fn = FieldName.Currency then _
            else base.f fn) = base.f fn
          rw [if_neg h1, if_neg h2, if_neg h3]
      · exact absurd h (by simp)

/-- Every record of the price-break expansion keeps the base record's
stock fields. -/
theorem processItem_stock (mfg_name : String) (base : PartRecord)
    (li : Option String × Option String) (r : PartRecord)
    (h : processItem mfg_name base li = some r) :
    r.f FieldName.On_Hand_Stock = base.f FieldName.On_Hand_Stock ∧
    r.f FieldName.Stock_Per_Price_Break = base.f FieldName.Stock_Per_Price_Break :=
  ⟨processItem_fields mfg_name base li r h FieldName.On_Hand_Stock
    (by decide) (by decide) (by decide),
   processItem_fields mfg_name base li r h FieldName.Stock_Per_Price_Break
    (by decide) (by decide) (by decide)⟩

theorem stockFromInstock_ok (tr : DistRow) :
    stockFromInstock tr = "" ∨ pyIsdigit (stockFromInstock tr).data = true := by
  unfold stockFromInstock
  split
  · split
    · next h => exact Or.inr ((Bool.and_eq_true _ _).mp h).2
    · exact Or.inl rfl
  · exact Or.inl rfl

theorem stockFromTd_ok (tr : DistRow) :
    stockFromTd tr = "" ∨ pyIsdigit (stockFromTd tr).data = true := by
  unfold stockFromTd
  split
  · split
    · next h => exact Or.inr ((Bool.and_eq_true _ _).mp h).2
    · exact stockFromInstock_ok tr
  · exact stockFromInstock_ok tr

theorem extract_perfect_stock_ok (tr : DistRow) :
    extract_perfect_stock tr = "" ∨ pyIsdigit (extract_perfect_stock tr).data = true := by
  unfold extract_perfect_stock
  split
  · split
    · next h => exact Or.inr ((Bool.and_eq_true _ _).mp h).2
    · exact stockFromTd_ok tr
  · exact stockFromTd_ok tr

/-- Every record emitted for a row carries the row's extracted stock in
both stock fields. -/
theorem processRow_stock_fields (mpn mfg_name main_cat : String) (tr : DistRow) :
    ∀ r ∈ processRow mpn mfg_name main_cat tr,
      r.f FieldName.On_Hand_Stock = extract_perfect_stock tr ∧
      r.f FieldName.Stock_Per_Price_Break = extract_perfect_stock tr := by
  intro r hr
  simp only [processRow] at hr
  split at hr
  · simp at hr
  · split at hr
    · simp at hr
    · split at hr
      · split at hr
        · rw [List.mem_singleton] at hr
          subst hr
          exact ⟨rfl, rfl⟩
        · simp at hr
      · obtain ⟨li, hli, heq⟩ := List.mem_filterMap.mp hr
        have h2 := processItem_stock _ _ _ _ heq
        exact ⟨h2.1.trans rfl, h2.2.trans rfl⟩

instance : DecidableEq PartRecord := fun a b =>
  decidable_of_iff (a.f = b.f ∧ a.scrape_time = b.scrape_time)
    (by cases a; cases b; simp)

/-- C10.  The stock extraction always yields either the empty string or a
non-empty all-digit string, and consequently both stock fields of every
record emitted by the Row Extractor are either empty or purely numeric
digit strings. -/
theorem stock_fields_digits (tr : DistRow) (mpn category_path page_mfg : String)
    (rows : List DistRow) :
    (extract_perfect_stock tr = "" ∨
      pyIsdigit (extract_perfect_stock tr).data = true) ∧
    (∀ r ∈ extract_rows_from_search_page mpn category_path page_mfg rows,
      (r.f FieldName.On_Hand_Stock = "" ∨
        pyIsdigit (r.f FieldName.On_Hand_Stock).data = true) ∧
      (r.f FieldName.Stock_Per_Price_Break = "" ∨
        pyIsdigit (r.f FieldName.Stock_Per_Price_Break).data = true)) := by
  refine ⟨extract_perfect_stock_ok tr, ?_⟩
  intro r hr
  simp only [extract_rows_from_search_page] at hr
  rw [List.mem_flatten] at hr
  obtain ⟨l, hl, hrl⟩ := hr
  obtain ⟨tr2, _, rfl⟩ := List.mem_map.mp hl
  have hf := processRow_stock_fields _ _ _ tr2 r hrl
  rw [hf.1, hf.2]
  exact ⟨extract_perfect_stock_ok tr2, extract_perfect_stock_ok tr2⟩

theorem stock_fields_digits_witness :
    pyIsdigit (extract_perfect_stock wRowGoodPrices).data = true ∧
    (buildBase "AB123456" "Vishay" "Connectors" "Mouser" "Mouser" "5" "").f
      FieldName.On_Hand_Stock = "5" ∧
    pyIsdigit ((buildBase "AB123456" "Vishay" "Connectors" "Mouser" "Mouser" "5" "").f
      FieldName.On_Hand_Stock).data = true := by
  have h := stock_fields_digits wRowGoodPrices "AB123456" "Connectors" "Vishay"
    [wRowFallback]
  have hmem : buildBase "AB123456" "Vishay" "Connectors" "Mouser" "Mouser" "5" "" ∈
      extract_rows_from_search_page "AB123456" "Connectors" "Vishay" [wRowFallback] := by
    decide
  have h2 := h.2 _ hmem
  refine ⟨?_, by decide, ?_⟩
  · rcases h.1 with he | hd
    · exact absurd he (by decide)
    · exact hd
  · rcases h2.1 with he | hd
    · exact absurd he (by decide)
    · exact hd

/-- C7 counterexample.  As stated, the claim omits the supplier-name and
non-empty-price-list guards: a row whose distributor name cleans to the
empty string (the pollution keyword `data`) is skipped even though its
single price pair is valid (0 records instead of 1), and a row with no
price list but non-empty stock emits one fallback record (1 record
instead of 0). -/
theorem price_break_count_cex :
    (processRow "AB123456" "" "" wRowSkippedSupplier).length = 0 ∧
    (wRowSkippedSupplier.priceItems).length = 1 ∧
    (processRow "AB123456" "" "" wRowFallback).length = 1 ∧
    (wRowFallback.priceItems).length = 0 := by
  refine ⟨by decide, by decide, by decide, by decide⟩

/-- C7 (amended).  For every distributor row that carries a non-empty
distributor-name attribute whose cleaned supplier name has length at
least 2, whose price list is non-empty and consists of pairs with
non-empty digit-only quantities and non-empty cleaned prices, and for
every resolved manufacturer name free of pollution keywords, the Row
Extractor emits exactly one record per price pair, and any two of those
records agree on every field other than price quantity, unit price and
currency. -/
theorem price_break_expansion (mpn mfg_name main_cat : String) (tr : DistRow)
    (hname : tr.data_distributor_name.getD "" ≠ "")
    (hsup : 2 ≤ (clean_mfg_name (tr.data_distributor_name.getD "")).length)
    (hne : tr.priceItems ≠ [])
    (hvalid : ∀ li ∈ tr.priceItems, ∃ lq lv, li.1 = some lq ∧ li.2 = some lv ∧
      lq ≠ "" ∧ lq.data.all isDigitC = true ∧
      clean_price_text (String.mk (pyStrip lv.data)) ≠ "")
    (hpol : hasPollution mfg_name = false) :
    (processRow mpn mfg_name main_cat tr).length = tr.priceItems.length ∧
    ∀ r1 ∈ processRow mpn mfg_name main_cat tr,
      ∀ r2 ∈ processRow mpn mfg_name main_cat tr,
      ∀ fn, fn ≠ FieldName.Price_Qty → fn ≠ FieldName.Unit_Price →
        fn ≠ FieldName.Currency → r1.f fn = r2.f fn := by
  have hred : processRow mpn mfg_name main_cat tr =
      tr.priceItems.filterMap (processItem mfg_name
        (buildBase mpn mfg_name main_cat
          (clean_mfg_name (tr.data_distributor_name.getD ""))
          (tr.data_distributor_name.getD "") (extract_perfect_stock tr) tr.text)) := by
    simp only [processRow]
    rw [if_neg hname, if_neg (Nat.not_lt.mpr hsup),
      if_neg (fun h => hne (List.isEmpty_iff.mp h))]
  have hsome : ∀ li ∈ tr.priceItems,
      (processItem mfg_name
        (buildBase mpn mfg_name main_cat
          (clean_mfg_name (tr.data_distributor_name.getD ""))
          (tr.data_distributor_name.getD "") (extract_perfect_stock tr) tr.text)
        li).isSome = true := by
    intro li hli
    obtain ⟨lq, lv, h1, h2, hlqne, hlqd, hpr⟩ := hvalid li hli
    have hdig : ∀ c ∈ lq.data, isDigitC c = true := List.all_eq_true.mp hlqd
    have hstrip : pyStrip lq.data = lq.data :=
      pyStrip_no_ws _ (fun c hc => isDigitC_not_ws (hdig c hc))
    have hqty : String.mk ((pyStrip lq.data).filter isDigitC) = lq := by
      rw [hstrip, List.filter_eq_self.mpr hdig]
    obtain ⟨o1, o2⟩ := li
    simp only at h1 h2
    subst h1
    subst h2
    simp only [processItem]
    rw [if_pos ⟨by rw [hqty]; exact hlqne, hpr⟩, if_neg (by simp [hpol])]
    rfl
  constructor
  · rw [hred]
    exact filterMap_length_of_all_some _ _ hsome
  · intro r1 hr1 r2 hr2 fn h1 h2 h3
    rw [hred] at hr1 hr2
    obtain ⟨li1, _, heq1⟩ := List.mem_filterMap.mp hr1
    obtain ⟨li2, _, heq2⟩ := List.mem_filterMap.mp hr2
    rw [processItem_fields _ _ _ _ heq1 fn h1 h2 h3,
      processItem_fields _ _ _ _ heq2 fn h1 h2 h3]

theorem price_break_expansion_witness :
    (processRow "AB123456" "Vishay" "Connectors" wRowGoodPrices).length = 2 := by
  have h := price_break_expansion "AB123456" "Vishay" "Connectors" wRowGoodPrices
    (by decide) (by decide) (by decide) ?_ (by decide)
  · exact h.1
  · intro li hli
    rw [show wRowGoodPrices.priceItems =
      [(some "1", some "$5.00"), (some "10", some "$4.50")] from rfl] at hli
    rcases List.mem_cons.mp hli with rfl | hli2
    · exact ⟨"1", "$5.00", rfl, rfl, by decide, by decide, by decide⟩
    · rcases List.mem_cons.mp hli2 with rfl | hli3
      · exact ⟨"10", "$4.50", rfl, rfl, by decide, by decide, by decide⟩
      · simp at hli3

/-! ## Identifier Extractor (main.py lines 241-365) -/

/-- The segment terminators `[^/?#]` of the detail-link regex. -/
def isDelimC (c : Char) : Bool :=
  c = '/' || c = '?' || c = '#'

/-- One position of `re.search(r'/detail/([^/?#]+)', href)`: the literal
followed by at least one non-delimiter character; group 1 is the maximal
run. -/
def detailSegAt (l : List Char) : Option (List Char) :=
  if "/detail/".data.isPrefixOf l then
    let seg := (l.drop 8).takeWhile (fun c => !isDelimC c)
    if seg.isEmpty then none else some seg
  else none

/-- Group 1 of the detail-link regex over a whole address. -/
def detailSeg (href : List Char) : Option (List Char) :=
  scanFor detailSegAt href

/-- `re.sub(r'^\[|\]$', '', candidate)`: one leading `[` and one trailing
`]` removed. -/
def stripBrackets (l : List Char) : List Char :=
  let s1 := match l with
    | '[' :: t => t
    | _ => l
  if s1.getLast? = some ']' then s1.dropLast else s1

/-- The identifier character class: word characters, dash, slash, comma,
colon (the complement is removed by the identifier cleaning `re.sub`). -/
def isMpnKeepC (c : Char) : Bool :=
  isWordC c || c = '-' || c = '/' || c = ',' || c = ':'

/-- Identifier normalization: keep the identifier class, uppercase. -/
def normMpn (l : List Char) : List Char :=
  (l.filter isMpnKeepC).map toUpperC

/-- Python `str.isalpha` (ASCII): non-empty and all letters. -/
def pyIsalpha (l : List Char) : Bool :=
  !l.isEmpty && l.all isAlphaC

/-- `_extract_mpns_from_detail_links` (main.py lines 254-283).  Input: the
`a[href*='/detail/']` elements as (href attribute, stripped link text)
pairs.  The candidate comes from the address path when the detail regex
matches, else from the link text; it is bracket-stripped, normalized, and
kept when its length is 6-40 and it contains a digit.  The Python `set`
is modelled as an insertion-ordered duplicate-free list. -/
def detailLinkStep (acc : List String) (link : Option String × String) : List String :=
  let href := (link.1.getD "").data
  let cand0 := match detailSeg href with
    | some m => pyStrip m
    | none => pyStrip link.2.data
  let cand := normMpn (stripBrackets cand0)
  if decide (6 ≤ cand.length) && decide (cand.length ≤ 40) && cand.any isDigitC then
    if String.mk cand ∈ acc then acc else acc ++ [String.mk cand]
  else acc

def _extract_mpns_from_detail_links (links : List (Option String × String)) : List String :=
  links.foldl detailLinkStep []

/-- `_extract_mpns_from_text` (main.py lines 285-312).  Input: the raw
strings matched by the three identifier regex shapes over the body text
(`all_found`); the body-text scan itself is page data from the rendering
engine.  Each match is normalized and kept when its length is 6-40, it
contains a digit, it is not purely alphabetic, and it is new. -/
def textMpnStep (acc : List String) (m : String) : List String :=
  let cand := normMpn m.data
  if decide (6 ≤ cand.length) && decide (cand.length ≤ 40) && cand.any isDigitC &&
     !pyIsalpha cand && !(decide (String.mk cand ∈ acc)) then acc ++ [String.mk cand]
  else acc

def _extract_mpns_from_text (found : List String) : List String :=
  found.foldl textMpnStep []

/-- One position of `re.search(r'No manufacturer.*found', body, re.I)`:
the literal, then same-line characters, then `found`. -/
def noMfgAt (l : List Char) : Option Unit :=
  if ciPrefix "No manufacturer".data l &&
     hasSubstrCI "found".data ((l.drop 15).takeWhile (fun c => !(c = '\n'))) then
    some ()
  else none

/-- `_page_has_no_manufacturers_message` (main.py lines 241-252). -/
def _page_has_no_manufacturers_message (body : String) : Bool :=
  hasSubstrCI "There are no manufacturers found for".data body.data ||
  hasSubstrCI "No results found".data body.data ||
  (scanFor noMfgAt body.data).isSome

/-- A rendered category page as `find_real_mpns` consumes it: body text,
title, detail-link elements, and the raw matches of the three body-text
identifier patterns. -/
structure MpnPage where
  bodyText : String
  title : String
  detailLinks : List (Option String × String)
  textMatches : List String

/-- The cross-validation predicate of `find_real_mpns` (main.py lines
340-358): the candidate occurs in some detail-link address (directly,
slash-encoded, or case-insensitively slash-encoded), or in the page
title, or in the body text (case-insensitively). -/
def validMpnOnPage (page : MpnPage) (cand : String) : Bool :=
  let enc := (cand.data.map (fun c => if c = '/' then "%2F".data else [c])).flatten
  page.detailLinks.any (fun link =>
    let href := (link.1.getD "").data
    hasSubstr cand.data href || hasSubstr enc href ||
    hasSubstr (enc.map toUpperC) (href.map toUpperC)) ||
  hasSubstr (cand.data.map toUpperC) (page.title.data.map toUpperC) ||
  hasSubstr (cand.data.map toUpperC) (page.bodyText.data.map toUpperC)

/-- `list(set(...))` de-duplication, keeping first occurrences. -/
def dedupKeepFirst (l : List String) : List String :=
  l.foldl (fun acc s => if s ∈ acc then acc else acc ++ [s]) []

/-- `find_real_mpns` (main.py lines 314-365): short-circuit on the
no-manufacturers message; otherwise merge and de-duplicate both candidate
sources and keep the candidates that cross-validate against the page. -/
def find_real_mpns (page : MpnPage) : List String :=
  if _page_has_no_manufacturers_message page.bodyText then []
  else
    let all_candidates := dedupKeepFirst
      (_extract_mpns_from_detail_links page.detailLinks ++
       _extract_mpns_from_text page.textMatches)
    dedupKeepFirst (all_candidates.filter (validMpnOnPage page))

/-! ## C4: the validated-identifier format invariant -/

/-- The identifier format of C4: length 6-40 with at least one digit. -/
def MpnFormat (m : String) : Prop :=
  6 ≤ m.data.length ∧ m.data.length ≤ 40 ∧ m.data.any isDigitC = true

theorem isDigitC_not_alpha {c : Char} (h : isDigitC c = true) : isAlphaC c = false := by
  simp only [isDigitC, Bool.and_eq_true, decide_eq_true_eq] at h
  cases ha : isAlphaC c
  · rfl
  · exfalso
    simp only [isAlphaC, isUpperC, isLowerC, Bool.or_eq_true, Bool.and_eq_true,
      decide_eq_true_eq] at ha
    rcases ha with ⟨h1, h2⟩ | ⟨h1, h2⟩ <;> omega

/-- A string containing a digit is not purely alphabetic. -/
theorem mpnFormat_not_alpha {m : String} (h : MpnFormat m) :
    pyIsalpha m.data = false := by
  obtain ⟨c, hc, hd⟩ := List.any_eq_true.mp h.2.2
  cases hp : pyIsalpha m.data
  · rfl
  · exfalso
    have hall := ((Bool.and_eq_true _ _).mp hp).2
    have := List.all_eq_true.mp hall c hc
    rw [isDigitC_not_alpha hd] at this
    simp at this

theorem detailLinkStep_format (acc : List String) (link : Option String × String)
    (hacc : ∀ m ∈ acc, MpnFormat m) : ∀ m ∈ detailLinkStep acc link, MpnFormat m := by
  intro m hm
  simp only [detailLinkStep] at hm
  split at hm
  · next hcond =>
    split at hm
    · exact hacc m hm
    · rcases List.mem_append.mp hm with h1 | h2
      · exact hacc m h1
      · rw [List.mem_singleton] at h2
        subst h2
        have hc := (Bool.and_eq_true _ _).mp hcond
        have hc2 := (Bool.and_eq_true _ _).mp hc.1
        exact ⟨by simpa using hc2.1, by simpa using hc2.2, hc.2⟩
  · exact hacc m hm

theorem textMpnStep_format (acc : List String) (t : String)
    (hacc : ∀ m ∈ acc, MpnFormat m ∧ pyIsalpha m.data = false) :
    ∀ m ∈ textMpnStep acc t, MpnFormat m ∧ pyIsalpha m.data = false := by
  intro m hm
  simp only [textMpnStep] at hm
  split at hm
  · next hcond =>
    rcases List.mem_append.mp hm with h1 | h2
    · exact hacc m h1
    · rw [List.mem_singleton] at h2
      subst h2
      have hc1 := (Bool.and_eq_true _ _).mp hcond
      have hc2 := (Bool.and_eq_true _ _).mp hc1.1
      have hc3 := (Bool.and_eq_true _ _).mp hc2.1
      have hc4 := (Bool.and_eq_true _ _).mp hc3.1
      refine ⟨⟨by simpa using hc4.1, by simpa using hc4.2, hc3.2⟩, ?_⟩
      have := hc2.2
      simpa using this
  · exact hacc m hm

theorem detail_mpns_format (links : List (Option String × String)) :
    ∀ m ∈ _extract_mpns_from_detail_links links, MpnFormat m := by
  unfold _extract_mpns_from_detail_links
  have key : ∀ (ls : List (Option String × String)) (acc : List String),
      (∀ m ∈ acc, MpnFormat m) → ∀ m ∈ ls.foldl detailLinkStep acc, MpnFormat m := by
    intro ls
    induction ls with
    | nil => intro acc hacc; simpa using hacc
    | cons link rest ih =>
      intro acc hacc
      rw [List.foldl_cons]
      exact ih _ (detailLinkStep_format acc link hacc)
  exact key links [] (by simp)

theorem text_mpns_format (found : List String) :
    ∀ m ∈ _extract_mpns_from_text found, MpnFormat m ∧ pyIsalpha m.data = false := by
  unfold _extract_mpns_from_text
  have key : ∀ (ls : List String) (acc : List String),
      (∀ m ∈ acc, MpnFormat m ∧ pyIsalpha m.data = false) →
      ∀ m ∈ ls.foldl textMpnStep acc, MpnFormat m ∧ pyIsalpha m.data = false := by
    intro ls
    induction ls with
    | nil => intro acc hacc; simpa using hacc
    | cons t rest ih =>
      intro acc hacc
      rw [List.foldl_cons]
      exact ih _ (textMpnStep_format acc t hacc)
  exact key found [] (by simp)

theorem mem_dedupKeepFirst (l : List String) (s : String) :
    s ∈ dedupKeepFirst l → s ∈ l := by
  unfold dedupKeepFirst
  have key : ∀ (ls : List String) (acc : List String),
      s ∈ ls.foldl (fun acc x => if x ∈ acc then acc else acc ++ [x]) acc →
      s ∈ acc ∨ s ∈ ls := by
    intro ls
    induction ls with
    | nil => intro acc h; exact Or.inl (by simpa using h)
    | cons x rest ih =>
      intro acc h
      rw [List.foldl_cons] at h
      rcases ih _ h with hin | hin
      · by_cases hx : x ∈ acc
        · rw [if_pos hx] at hin
          exact Or.inl hin
        · rw [if_neg hx] at hin
          rcases List.mem_append.mp hin with h1 | h2
          · exact Or.inl h1
          · rw [List.mem_singleton] at h2
            subst h2
            exact Or.inr (by simp)
      · exact Or.inr (by simp [hin])
  intro h
  rcases key l [] h with h1 | h1
  · simp at h1
  · exact h1

/-- C4.  Every identifier returned by the validated-identifier extraction,
for any page contents, has length between 6 and 40 inclusive, contains at
least one decimal digit, and is not purely alphabetic. -/
theorem find_real_mpns_format (page : MpnPage) :
    ∀ m ∈ find_real_mpns page,
      6 ≤ m.data.length ∧ m.data.length ≤ 40 ∧ m.data.any isDigitC = true ∧
      pyIsalpha m.data = false := by
  intro m hm
  unfold find_real_mpns at hm
  split at hm
  · simp at hm
  · have h1 := mem_dedupKeepFirst _ _ hm
    have h2 := List.mem_filter.mp h1
    have h3 := mem_dedupKeepFirst _ _ h2.1
    rcases List.mem_append.mp h3 with hd | ht
    · have hf := detail_mpns_format page.detailLinks m hd
      exact ⟨hf.1, hf.2.1, hf.2.2, mpnFormat_not_alpha hf⟩
    · have hf := text_mpns_format page.textMatches m ht
      exact ⟨hf.1.1, hf.1.2.1, hf.1.2.2, hf.2⟩

/-- A small rendered page with one structurally linked identifier. -/
def wPage : MpnPage :=
  { bodyText := "ACME AB123456 by SomeCorp"
    title := "AB123456 price comparison"
    detailLinks := [(some "https://x/detail/AB123456?src=q", "AB123456")]
    textMatches := ["AB123456"] }

example : find_real_mpns wPage = ["AB123456"] := by decide

theorem find_real_mpns_format_witness :
    "AB123456" ∈ find_real_mpns wPage ∧
    6 ≤ "AB123456".data.length ∧ "AB123456".data.length ≤ 40 ∧
    "AB123456".data.any isDigitC = true ∧ pyIsalpha "AB123456".data = false := by
  have hmem : "AB123456" ∈ find_real_mpns wPage := by decide
  have h := find_real_mpns_format wPage "AB123456" hmem
  exact ⟨hmem, h.1, h.2.1, h.2.2.1, h.2.2.2⟩

/-! ## Traversal Engine: `scrape_category_tree` (main.py lines 627-691) -/

/-- What one rendered category page contributes to the traversal: the
number of records its identifier processing appends to the Accumulator,
and its subcategory link elements (href attribute, link text). -/
structure CatPage where
  partsAdded : Nat
  subLinks : List (Option String × String)

/-- The traversal state: the shared visited-address set (modelled as a
list), the trace of addresses actually processed (in order), and the
Accumulator record count used by the global cap. -/
structure CrawlState where
  visited : List String
  processed : List String
  partsCount : Nat

/-- `scrape_category_tree` as a fuel-indexed worklist recursion.  The
work stack holds (address, category path) frames; popping a frame is the
entry of one recursive call: the address is skipped when already visited
or when the Accumulator exceeds the 500000-record cap, otherwise it is
marked visited, processed (its records are appended), and its qualifying
subcategory links (truthy href containing `/parametric/`, stripped link
text longer than 2) are pushed depth-first with the extended path.  The
code's pre-recursion `href not in self.visited_urls` test is subsumed by
this entry test, which re-checks the same condition at call time.  The
fuel bounds the number of frames handled; the no-revisit property holds
for every fuel. -/
def crawl (pages : String → CatPage) :
    Nat → List (String × String) → CrawlState → CrawlState
  | 0, _, s => s
  | _ + 1, [], s => s
  | fuel + 1, (url, path) :: stack, s =>
    if url ∈ s.visited ∨ 500000 < s.partsCount then crawl pages fuel stack s
    else
      let pg := pages url
      let s1 : CrawlState :=
        { visited := url :: s.visited
          processed := s.processed ++ [url]
          partsCount := s.partsCount + pg.partsAdded }
      let newItems := pg.subLinks.filterMap (fun link =>
        let href := link.1.getD ""
        if href ≠ "" ∧ hasSubstr "/parametric/".data href.data ∧
           2 < (pyStrip link.2.data).length then
          some (href, path ++ "/" ++ clean_category_name link.2)
        else none)
      crawl pages fuel (newItems ++ stack) s1

/-- The traversal invariant: the processed trace has no duplicates and
every processed address has been marked visited. -/
def CrawlInv (s : CrawlState) : Prop :=
  s.processed.Nodup ∧ ∀ u ∈ s.processed, u ∈ s.visited

theorem crawl_inv (pages : String → CatPage) :
    ∀ (fuel : Nat) (stack : List (String × String)) (s : CrawlState), CrawlInv s →
      CrawlInv (crawl pages fuel stack s) ∧
      ∀ u ∈ s.visited, u ∈ (crawl pages fuel stack s).visited := by
  intro fuel
  induction fuel with
  | zero => intro stack s hs; exact ⟨hs, fun u hu => hu⟩
  | succ fuel ih =>
    intro stack s hs
    rcases stack with _ | ⟨⟨url, path⟩, rest⟩
    · exact ⟨hs, fun u hu => hu⟩
    · by_cases hc : url ∈ s.visited ∨ 500000 < s.partsCount
      · rw [show crawl pages (fuel + 1) ((url, path) :: rest) s =
          crawl pages fuel rest s from by rw [crawl, if_pos hc]]
        exact ih rest s hs
      · have hnv : url ∉ s.visited := fun h => hc (Or.inl h)
        rw [show crawl pages (fuel + 1) ((url, path) :: rest) s =
          crawl pages fuel
            (((pages url).subLinks.filterMap (fun link =>
              if (link.1.getD "") ≠ "" ∧
                 hasSubstr "/parametric/".data (link.1.getD "").data ∧
                 2 < (pyStrip link.2.data).length then
                some (link.1.getD "", path ++ "/" ++ clean_category_name link.2)
              else none)) ++ rest)
            { visited := url :: s.visited
              processed := s.processed ++ [url]
              partsCount := s.partsCount + (pages url).partsAdded } from by
          rw [crawl, if_neg hc]]
        have hs1 : CrawlInv
            { visited := url :: s.visited
              processed := s.processed ++ [url]
              partsCount := s.partsCount + (pages url).partsAdded } := by
          constructor
          · rw [List.nodup_append]
            refine ⟨hs.1, List.nodup_singleton url, ?_⟩
            intro a ha hau
            rw [List.mem_singleton] at hau
            subst hau
            exact hnv (hs.2 a ha)
          · intro u hu
            rcases List.mem_append.mp hu with h1 | h2
            · exact List.mem_cons_of_mem _ (hs.2 u h1)
            · rw [List.mem_singleton] at h2
              subst h2
              exact List.mem_cons_self _ _
        have hres := ih
          (((pages url).subLinks.filterMap (fun link =>
            if (link.1.getD "") ≠ "" ∧
               hasSubstr "/parametric/".data (link.1.getD "").data ∧
               2 < (pyStrip link.2.data).length then
              some (link.1.getD "", path ++ "/" ++ clean_category_name link.2)
            else none)) ++ rest) _ hs1
        exact ⟨hres.1, fun u hu => hres.2 u (List.mem_cons_of_mem _ hu)⟩

/-- C8.  The traversal never processes the same address twice in one run:
for every page graph (cyclic ones included), every fuel bound, every
starting address and path, each address occurs at most once in the
processed trace, because an address found in the visited set on entry is
skipped entirely. -/
theorem crawl_no_revisit (pages : String → CatPage) (fuel : Nat) (url path u : String) :
    ((crawl pages fuel [(url, path)]
      { visited := [], processed := [], partsCount := 0 }).processed.count u) ≤ 1 := by
  have h := crawl_inv pages fuel [(url, path)]
    { visited := [], processed := [], partsCount := 0 } ⟨List.nodup_nil, by simp⟩
  exact List.nodup_iff_count_le_one.mp h.1.1 u

/-- A two-page catalog with a cycle: page A links to page B and page B
links back to page A. -/
def wPagesCyclic : String → CatPage := fun url =>
  if url = "https://findchips.com/parametric/A" then
    { partsAdded := 3
      subLinks := [(some "https://findchips.com/parametric/B", "Connectors B")] }
  else if url = "https://findchips.com/parametric/B" then
    { partsAdded := 2
      subLinks := [(some "https://findchips.com/parametric/A", "Connectors A")] }
  else { partsAdded := 0, subLinks := [] }

example : (crawl wPagesCyclic 10 [("https://findchips.com/parametric/A", "Components")]
    { visited := [], processed := [], partsCount := 0 }).processed =
    ["https://findchips.com/parametric/A", "https://findchips.com/parametric/B"] := by
  decide
